import Mathlib

/-!
# internet-cash/prototype: `common/amount.go` and `netsync/netsync.go`

A shallow embedding of the two source files together with the properties
established about them.

* `Common`: `AmountUnit`, `Amount`, `round`, `NewAmount`, `ToUnit`, `ToBTC`
  over an executable model of IEEE-754 binary64 (`F64`).
* `Netsync`: the `NetSync` record and its lifecycle.
-/

namespace Common

/-! ## IEEE-754 binary64, the Go type `float64` -/

/-- A `float64`: not-a-number, a signed infinity, or the finite value
`(-1)^neg * m * 2^e`. -/
inductive F64 where
  | nan
  | inf (neg : Bool)
  | fin (neg : Bool) (m : Nat) (e : Int)
  deriving DecidableEq

namespace F64

/-- The finite values that are binary64 numbers: a 53-bit significand, exponent of
the last place between -1074 and 971, and the significand normalised unless the
value is subnormal. -/
def Valid : F64 → Prop
  | fin _ m e => m < 2 ^ 53 ∧ -1074 ≤ e ∧ e ≤ 971 ∧ (2 ^ 52 ≤ m ∨ e = -1074)
  | _ => True

instance (f : F64) : Decidable (Valid f) := by
  cases f <;> unfold Valid <;> infer_instance

/-- Neither NaN nor an infinity. -/
def isFinite : F64 → Bool
  | fin _ _ _ => true
  | _ => false

/-- The rational number a finite value denotes (0 for NaN and the infinities). -/
def toRat : F64 → ℚ
  | fin neg m e => (if neg then -1 else 1) * (m : ℚ) * (2 : ℚ) ^ e
  | _ => 0

/-- Number of halvings that bring `n` below 2, with `fuel` steps allowed. -/
def ilog2Aux : Nat → Nat → Nat
  | 0, _ => 0
  | fuel + 1, n => if n < 2 then 0 else ilog2Aux fuel (n / 2) + 1

/-- Position of the leading bit of `n`: the floor of its binary logarithm. -/
def ilog2 (n : Nat) : Nat := ilog2Aux n n

/-- The integer nearest to `N / D`, a tie going to the even neighbour. -/
def nearestEven (N D : Nat) : Nat :=
  if D < 2 * (N % D) ∨ (2 * (N % D) = D ∧ (N / D) % 2 = 1) then N / D + 1 else N / D

/-- The floor of the binary logarithm of the positive rational `n / d`. -/
def floorLog2 (n d : Nat) : Int :=
  let k : Int := (ilog2 n : Int) - (ilog2 d : Int)
  if d * 2 ^ k.toNat ≤ n * 2 ^ (-k).toNat then k else k - 1

/-- Round-to-nearest, ties-to-even, of the rational `n / d` (with `d > 0`) carrying
the sign `neg`: the significand is cut at 53 bits or at the subnormal exponent
-1074, whichever is coarser, and a result beyond the largest finite value is an
infinity. -/
def roundPos (neg : Bool) (n d : Nat) : F64 :=
  if n = 0 then fin neg 0 (-1074) else
  let e : Int := max (floorLog2 n d - 52) (-1074)
  let q := nearestEven (n * 2 ^ (-e).toNat) (d * 2 ^ e.toNat)
  if q = 2 ^ 53 then
    (if 971 < e + 1 then inf neg else fin neg (2 ^ 52) (e + 1))
  else
    (if 971 < e then inf neg else fin neg q e)

/-- Rounding of the dyadic `n * 2^e`. -/
def roundDyadic (neg : Bool) (n : Nat) (e : Int) : F64 :=
  roundPos neg (n * 2 ^ e.toNat) (2 ^ (-e).toNat)

/-- The integer `m` with the sign `neg`. -/
def signed (neg : Bool) (m : Nat) : Int := if neg then -(m : Int) else (m : Int)

/-- Unary minus. -/
def neg : F64 → F64
  | nan => nan
  | inf s => inf (!s)
  | fin s m e => fin (!s) m e

/-- The Go operator `+` on `float64`: the exact sum, rounded once. -/
def add : F64 → F64 → F64
  | nan, _ => nan
  | _, nan => nan
  | inf s, inf t => if s = t then inf s else nan
  | inf s, fin _ _ _ => inf s
  | fin _ _ _, inf t => inf t
  | fin s1 m1 e1, fin s2 m2 e2 =>
    let e := min e1 e2
    let s : Int := signed s1 m1 * 2 ^ (e1 - e).toNat + signed s2 m2 * 2 ^ (e2 - e).toNat
    if s = 0 then fin (s1 && s2) 0 (-1074) else roundDyadic (decide (s < 0)) s.natAbs e

/-- The Go operator `-` on `float64`. -/
def sub (a b : F64) : F64 := add a (neg b)

/-- The Go operator `*` on `float64`: the exact product, rounded once. -/
def mul : F64 → F64 → F64
  | nan, _ => nan
  | _, nan => nan
  | inf s, inf t => inf (xor s t)
  | inf s, fin t m _ => if m = 0 then nan else inf (xor s t)
  | fin s m _, inf t => if m = 0 then nan else inf (xor s t)
  | fin s1 m1 e1, fin s2 m2 e2 => roundDyadic (xor s1 s2) (m1 * m2) (e1 + e2)

/-- A fused multiply-add `a * b + c`: the exact product plus `c`, rounded once.  The
exact product of two finite values is the dyadic `m1 * m2 * 2^(e1 + e2)`, on which
`add` computes the exact sum before its single rounding. -/
def fma : F64 → F64 → F64 → F64
  | fin s1 m1 e1, fin s2 m2 e2, c => add (fin (xor s1 s2) (m1 * m2) (e1 + e2)) c
  | a, b, c => add (mul a b) c

/-- The Go operator `/` on `float64`: the exact quotient, rounded once. -/
def div : F64 → F64 → F64
  | nan, _ => nan
  | _, nan => nan
  | inf _, inf _ => nan
  | inf s, fin t _ _ => inf (xor s t)
  | fin s _ _, inf t => fin (xor s t) 0 (-1074)
  | fin s1 m1 e1, fin s2 m2 e2 =>
    if m2 = 0 then (if m1 = 0 then nan else inf (xor s1 s2))
    else roundPos (xor s1 s2) (m1 * 2 ^ (e1 - e2).toNat) (m2 * 2 ^ (e2 - e1).toNat)

/-- The Go operator `<` on `float64`; every comparison with NaN is false. -/
def lt : F64 → F64 → Bool
  | nan, _ => false
  | _, nan => false
  | inf s, inf t => s && !t
  | inf s, fin _ _ _ => s
  | fin _ _ _, inf t => !t
  | fin s1 m1 e1, fin s2 m2 e2 =>
    decide (signed s1 m1 * 2 ^ (e1 - min e1 e2).toNat < signed s2 m2 * 2 ^ (e2 - min e1 e2).toNat)

/-- The conversion `float64(a)` of an integer: the nearest binary64, ties to even. -/
def ofInt (a : Int) : F64 := roundPos (decide (a < 0)) a.natAbs 1

/-- A finite value with its fraction discarded (truncation toward zero). -/
def trunc? : F64 → Option Int
  | fin s m e => some (signed s (m * 2 ^ e.toNat / 2 ^ (-e).toNat))
  | _ => none

end F64

/-! ## `common/amount.go` -/

/-- Two's-complement wrap-around of an integer into the `int64` range. -/
def wrapInt64 (i : Int) : Int := (i + 2 ^ 63) % 2 ^ 64 - 2 ^ 63

/-- The type `AmountUnit int`; arithmetic on it wraps as 64-bit `int` does. -/
abbrev AmountUnit := Int

def AmountMegaCoin : AmountUnit := 6
def AmountKiloCoin : AmountUnit := 3
def AmountCoin : AmountUnit := 0
def AmountMilliCoin : AmountUnit := -3
def AmountMicroCoin : AmountUnit := -6
def AmountCoinUnit : AmountUnit := -8

/-- The call `strconv.FormatInt(i, 10)`: decimal digits, with a minus sign for a
negative number. -/
def FormatInt (i : Int) : String :=
  if i < 0 then "-" ++ Nat.repr i.natAbs else Nat.repr i.toNat

/-- The method `func (u AmountUnit) String() string`: the switch over the six
named units and its default branch. -/
def AmountUnit.String (u : AmountUnit) : String :=
  if u = AmountMegaCoin then "MCoin"
  else if u = AmountKiloCoin then "kCoin"
  else if u = AmountCoin then "Coin"
  else if u = AmountMilliCoin then "mCoin"
  else if u = AmountMicroCoin then "μCoin"
  else if u = AmountCoinUnit then "CoinUnit"
  else "1e" ++ FormatInt u ++ " Coin"

/-- The type `Amount int64`. -/
abbrev Amount := Int

/-- An integer that is an `int64`. -/
def IsInt64 (a : Int) : Prop := -2 ^ 63 ≤ a ∧ a < 2 ^ 63

instance (a : Int) : Decidable (IsInt64 a) := by
  unfold IsInt64; infer_instance

/-- The conversion `Amount(f)` of a `float64` to `int64`: the fraction is
discarded.  When the truncated value is not an `int64` (or `f` is NaN or an
infinity) Go leaves the result implementation-dependent; `oor` supplies it. -/
def toInt64 (oor : F64 → Int) (f : F64) : Int :=
  match F64.trunc? f with
  | some v => if -2 ^ 63 ≤ v ∧ v < 2 ^ 63 then v else wrapInt64 (oor f)
  | none => wrapInt64 (oor f)

/-- The constant `0` as a `float64`. -/
def zero : F64 := F64.fin false 0 (-1074)

/-- The constant `0.5` as a `float64`. -/
def half : F64 := F64.fin false (2 ^ 52) (-53)

/-- The function `round` of `amount.go`: `Amount(f - 0.5)` when `f < 0`, else
`Amount(f + 0.5)`. -/
def round (oor : F64 → Int) (f : F64) : Amount :=
  if F64.lt f zero then toInt64 oor (F64.sub f half) else toInt64 oor (F64.add f half)

/-- Modelled from the spec: the constant `UnitCoinPerCoin`, which `amount.go` uses
and does not define; "a single Amount is equal to 1e-8 of a coin", so it is
`1e8 = 6710886400000000 * 2^-26` as a `float64`. -/
def UnitCoinPerCoin : F64 := F64.fin false 6710886400000000 (-26)

/-- The library function `math.IsNaN`. -/
def IsNaN : F64 → Bool
  | F64.nan => true
  | _ => false

/-- The library function `math.IsInf(f, sign)`: positive infinity when `sign ≥ 0`,
negative infinity when `sign ≤ 0`. -/
def IsInf (f : F64) (sign : Int) : Bool :=
  match f with
  | F64.inf s => (decide (sign ≥ 0) && !s) || (decide (sign ≤ 0) && s)
  | _ => false

/-- The call `round(a * b)` as a build may compile it once `round` is inlined: Go
allows an implementation to "combine multiple floating-point operations into a
single fused operation, possibly across statements", and no explicit `float64`
conversion separates the product from the `- 0.5` / `+ 0.5`, so the product and the
sum may be one fused multiply-add with a single rounding.  The test `f < 0` is on
the product. -/
def roundFused (oor : F64 → Int) (a b : F64) : Amount :=
  if F64.lt (F64.mul a b) zero then toInt64 oor (F64.fma a b (F64.neg half))
  else toInt64 oor (F64.fma a b half)

/-- The function `NewAmount` of `amount.go`, returning the amount and the error
(`none` is the nil error).  The three cases of the switch fall through to the one
`return 0, errors.New("invalid coin amount")`.  `fused` tells whether the build
fuses the product `f * UnitCoinPerCoin` with the addition inside `round`
(`roundFused`) or rounds the product first (`round`); the sign test selects one of
the two sums, so a build that fuses only one of them returns on each input what one
of these two builds returns. -/
def NewAmount (oor : F64 → Int) (fused : Bool) (f : F64) : Amount × Option String :=
  if IsNaN f then (0, some "invalid coin amount")
  else if IsInf f 1 then (0, some "invalid coin amount")
  else if IsInf f (-1) then (0, some "invalid coin amount")
  else if fused then (roundFused oor f UnitCoinPerCoin, none)
  else (round oor (F64.mul f UnitCoinPerCoin), none)

/-- The table `pow10tab` of package `math`: the literals `1e00` to `1e31`. -/
def pow10tab (i : Nat) : F64 := F64.roundPos false (10 ^ i) 1

/-- The table `pow10postab32` of package `math`: the literals `1e00, 1e32, ..., 1e288`. -/
def pow10postab32 (i : Nat) : F64 := F64.roundPos false (10 ^ (32 * i)) 1

/-- The table `pow10negtab32` of package `math`: the literals `1e-00, 1e-32, ..., 1e-320`. -/
def pow10negtab32 (i : Nat) : F64 := F64.roundPos false 1 (10 ^ (32 * i))

/-- The library function `math.Pow10`. -/
def Pow10 (n : Int) : F64 :=
  if 0 ≤ n ∧ n ≤ 308 then F64.mul (pow10postab32 (n.toNat / 32)) (pow10tab (n.toNat % 32))
  else if -323 ≤ n ∧ n ≤ 0 then
    F64.div (pow10negtab32 ((-n).toNat / 32)) (pow10tab ((-n).toNat % 32))
  else if n > 0 then F64.inf false
  else zero

/-- The method `func (a Amount) ToUnit(u AmountUnit) float64`:
`float64(a) / math.Pow10(int(u+8))`. -/
def Amount.ToUnit (a : Amount) (u : AmountUnit) : F64 :=
  F64.div (F64.ofInt a) (Pow10 (wrapInt64 (u + 8)))

/-- The method `func (a Amount) ToBTC() float64`. -/
def Amount.ToBTC (a : Amount) : F64 := Amount.ToUnit a AmountCoin

end Common

namespace Netsync

/-- Address of a heap object: the Go pointers `*peer.Peer`, `*blockchain.BlockChain`
and `*blockchain.Params` are compared by address, `none` is the nil pointer. -/
abbrev Ptr := Nat

/-- State of the `quit chan struct{}` field: the zero value is a nil channel, a
made channel is open until it is closed; closing is the quit signal. -/
inductive Chan where
  | nil
  | opened
  | closed
  deriving DecidableEq

/-- The struct `NetSync` of `netsync/netsync.go`, field by field.  `started` and
`shutdown` are `int32`, `wg` is the counter of the `sync.WaitGroup`. -/
structure NetSync where
  started : Int
  shutdown : Int
  Chain : Option Ptr
  ChainParam : Option Ptr
  wg : Nat
  quit : Chan
  syncPeer : Option Ptr
  deriving DecidableEq

/-- Peer `p` is the designated sync peer of state `s`. -/
def isSyncPeer (s : NetSync) (p : Ptr) : Prop := s.syncPeer = some p

instance (s : NetSync) (p : Ptr) : Decidable (isSyncPeer s p) := by
  unfold isSyncPeer; infer_instance

/-- Peer connect/disconnect events; a connecting peer carries whether the
handshake policy made it a sync candidate. -/
inductive PeerEvent where
  | connected (p : Ptr) (isSyncCandidate : Bool)
  | disconnected (p : Ptr)
  deriving DecidableEq

/-- State reached from `s` by handling the events `evs` in order with `handle`. -/
def runEvents (handle : NetSync → PeerEvent → NetSync) (s : NetSync)
    (evs : List PeerEvent) : NetSync :=
  evs.foldl handle s

/-- Modelled from the spec: the dispatcher's handling of `PeerConnected` and
`PeerDisconnected` (the source has no handler, only the struct).  On connect,
"if no sync peer selected and candidate qualifies, select it"; on disconnect,
"if this peer was the sync peer, clears SyncPeerSelection". -/
def dispatch (s : NetSync) : PeerEvent → NetSync
  | .connected p cand =>
      if s.syncPeer = none ∧ cand = true then { s with syncPeer := some p } else s
  | .disconnected p =>
      if s.syncPeer = some p then { s with syncPeer := none } else s

/-- Modelled from the spec: `Stop()` (the source has only the struct `NetSync`, no
method).  "`stop()` is idempotent, signals the dispatcher to drain, and blocks the
caller until all spawned work ... has observably completed before returning";
"any new work request made after `Stop()` begins is rejected".  A manager that is
already shutting down is left alone; otherwise the shutdown flag is raised, `quit`
is signalled and the call returns once the wait group has drained. -/
def Stop (s : NetSync) : NetSync :=
  if s.shutdown ≠ 0 then s
  else { s with shutdown := 1, quit := Chan.closed, wg := 0 }

/-- The observable lifecycle state: started flag, shutdown flag, whether quit has
been signalled, and the sync peer. -/
def observable (s : NetSync) : Bool × Bool × Bool × Option Ptr :=
  (decide (s.started ≠ 0), decide (s.shutdown ≠ 0), decide (s.quit = Chan.closed), s.syncPeer)

end Netsync

namespace Netsync

/-- C1: for every handler of peer connect/disconnect events, every start state and
every sequence of events, the reached state designates at most one sync peer: two
peers that are both the sync peer are the same peer. -/
theorem syncPeer_unique (handle : NetSync → PeerEvent → NetSync) (s0 : NetSync)
    (evs : List PeerEvent) (p q : Ptr)
    (hp : isSyncPeer (runEvents handle s0 evs) p)
    (hq : isSyncPeer (runEvents handle s0 evs) q) : p = q := by
  unfold isSyncPeer at hp hq
  rw [hp] at hq
  exact Option.some.inj hq

/-- Witness of C1 on the dispatcher modelled from the spec: peer 1 connects and is
selected, candidate 2 connects, 1 disconnects, 2 reconnects and is selected. -/
theorem syncPeer_unique_witness :
    isSyncPeer (runEvents dispatch ⟨0, 0, none, none, 0, Chan.opened, none⟩
      [.connected 1 true, .connected 2 true, .disconnected 1, .connected 2 true]) 2 ∧
    (2 : Ptr) = 2 :=
  ⟨by decide,
   syncPeer_unique dispatch ⟨0, 0, none, none, 0, Chan.opened, none⟩
     [.connected 1 true, .connected 2 true, .disconnected 1, .connected 2 true] 2 2
     (by decide) (by decide)⟩

/-- C6: `Stop` is idempotent: stopping twice gives the same state, hence the same
observable state (started and shutdown flags, quit signal, sync peer), as stopping
once. -/
theorem Stop_idempotent (s : NetSync) :
    Stop (Stop s) = Stop s ∧ observable (Stop (Stop s)) = observable (Stop s) := by
  have h : Stop (Stop s) = Stop s := by
    unfold Stop
    by_cases hs : s.shutdown ≠ 0
    · simp [hs]
    · simp [hs]
  exact ⟨h, by rw [h]⟩

end Netsync

namespace Common

open F64

/-! ### Arithmetic of the rounding function -/

theorem ilog2Aux_spec (fuel : Nat) : ∀ n : Nat, 0 < n → n ≤ fuel →
    2 ^ ilog2Aux fuel n ≤ n ∧ n < 2 ^ (ilog2Aux fuel n + 1) := by
  induction fuel with
  | zero => intro n h0 h1; omega
  | succ fuel ih =>
    intro n h0 h1
    unfold ilog2Aux
    by_cases h2 : n < 2
    · simp only [h2, if_true]
      constructor
      · simpa using h0
      · simpa using h2
    · simp only [h2, if_false]
      have hpos : 0 < n / 2 := Nat.div_pos (by omega) (by decide)
      have hle : n / 2 ≤ fuel := by omega
      obtain ⟨ha, hb⟩ := ih (n / 2) hpos hle
      rw [pow_succ] at hb
      rw [pow_succ, pow_succ, pow_succ]
      constructor <;> omega

theorem ilog2_spec (n : Nat) (h : 0 < n) : 2 ^ ilog2 n ≤ n ∧ n < 2 ^ (ilog2 n + 1) :=
  ilog2Aux_spec n n h (le_refl n)

theorem two_zpow_split (t : Int) :
    (2 : ℚ) ^ t = (2 : ℚ) ^ t.toNat / (2 : ℚ) ^ (-t).toNat := by
  rcases le_total 0 t with h | h
  · have h1 : (-t).toNat = 0 := by omega
    rw [h1, pow_zero, div_one, ← zpow_natCast, Int.toNat_of_nonneg h]
  · have h1 : t.toNat = 0 := by omega
    have h2 : ((-t).toNat : Int) = -t := Int.toNat_of_nonneg (by omega)
    rw [h1, pow_zero, one_div, ← zpow_natCast, h2, zpow_neg, inv_inv]

theorem nearestEven_err (N D : Nat) (hD : 0 < D) :
    |((nearestEven N D : Nat) : ℚ) - (N : ℚ) / (D : ℚ)| ≤ 1 / 2 := by
  have hDq : (0 : ℚ) < (D : ℚ) := by exact_mod_cast hD
  have hdiv : (N : ℚ) / (D : ℚ) = ((N / D : Nat) : ℚ) + ((N % D : Nat) : ℚ) / (D : ℚ) := by
    have h := Nat.div_add_mod N D
    have h2 : (N : ℚ) = (D : ℚ) * ((N / D : Nat) : ℚ) + ((N % D : Nat) : ℚ) := by
      exact_mod_cast h.symm
    field_simp
    linarith
  have hr : ((N % D : Nat) : ℚ) < (D : ℚ) := by exact_mod_cast Nat.mod_lt N hD
  have hr0 : (0 : ℚ) ≤ ((N % D : Nat) : ℚ) := by positivity
  unfold nearestEven
  split_ifs with h
  · have h2 : (D : ℚ) ≤ 2 * ((N % D : Nat) : ℚ) := by
      rcases h with h | ⟨h, _⟩
      · exact_mod_cast h.le
      · exact_mod_cast h.ge
    rw [hdiv, abs_le]
    push_cast
    constructor
    · have : ((N % D : Nat) : ℚ) / (D : ℚ) ≤ 1 := by
        rw [div_le_one hDq]; exact hr.le
      linarith
    · have : 1 / 2 ≤ ((N % D : Nat) : ℚ) / (D : ℚ) := by
        rw [le_div_iff₀ hDq]; linarith
      linarith
  · have h2 : 2 * ((N % D : Nat) : ℚ) ≤ (D : ℚ) := by
      have : ¬ D < 2 * (N % D) := fun hh => h (Or.inl hh)
      exact_mod_cast Nat.le_of_not_lt this
    have h3 : 0 ≤ ((N % D : Nat) : ℚ) / (D : ℚ) := by positivity
    have h4 : ((N % D : Nat) : ℚ) / (D : ℚ) ≤ 1 / 2 := by
      rw [div_le_iff₀ hDq]; linarith
    rw [hdiv, abs_le]
    constructor <;> linarith

theorem nearestEven_exact (N D k : Nat) (hD : 0 < D) (h : N = k * D) :
    nearestEven N D = k := by
  subst h
  unfold nearestEven
  have h1 : k * D % D = 0 := Nat.mul_mod_left k D
  have h2 : k * D / D = k := Nat.mul_div_cancel k hD
  rw [h1, h2]
  have : ¬ (D < 2 * 0 ∨ 2 * 0 = D ∧ k % 2 = 1) := by omega
  rw [if_neg this]

theorem scaled_div (n d : Nat) (e : Int) (hd : 0 < d) :
    ((n * 2 ^ (-e).toNat : Nat) : ℚ) / ((d * 2 ^ e.toNat : Nat) : ℚ)
      = (n : ℚ) / (d : ℚ) / (2 : ℚ) ^ e := by
  have hdq : (d : ℚ) ≠ 0 := by exact_mod_cast hd.ne'
  rw [two_zpow_split e]
  push_cast
  field_simp

theorem floorLog2_spec (n d : Nat) (hn : 0 < n) (hd : 0 < d) :
    (2 : ℚ) ^ floorLog2 n d ≤ (n : ℚ) / (d : ℚ) ∧
      (n : ℚ) / (d : ℚ) < (2 : ℚ) ^ (floorLog2 n d + 1) := by
  obtain ⟨ha1, ha2⟩ := ilog2_spec n hn
  obtain ⟨hb1, hb2⟩ := ilog2_spec d hd
  have hdq : (0 : ℚ) < (d : ℚ) := by exact_mod_cast hd
  have hnq : (0 : ℚ) < (n : ℚ) := by exact_mod_cast hn
  have qa1 : (2 : ℚ) ^ (ilog2 n : Int) ≤ (n : ℚ) := by
    rw [zpow_natCast]; exact_mod_cast ha1
  have qa2 : (n : ℚ) < (2 : ℚ) ^ ((ilog2 n : Int) + 1) := by
    have : (n : ℚ) < (2 : ℚ) ^ (ilog2 n + 1) := by exact_mod_cast ha2
    rw [← zpow_natCast] at this
    simpa using this
  have qb1 : (2 : ℚ) ^ (ilog2 d : Int) ≤ (d : ℚ) := by
    rw [zpow_natCast]; exact_mod_cast hb1
  have qb2 : (d : ℚ) < (2 : ℚ) ^ ((ilog2 d : Int) + 1) := by
    have : (d : ℚ) < (2 : ℚ) ^ (ilog2 d + 1) := by exact_mod_cast hb2
    rw [← zpow_natCast] at this
    simpa using this
  have h2 : (2 : ℚ) ≠ 0 := by norm_num
  have hpa : (0 : ℚ) < (2 : ℚ) ^ (ilog2 n : Int) := by positivity
  have hpb : (0 : ℚ) < (2 : ℚ) ^ (ilog2 d : Int) := by positivity
  -- the quotient lies strictly between 2^(k-1) and 2^(k+1)
  have hup : (n : ℚ) / (d : ℚ) < (2 : ℚ) ^ ((ilog2 n : Int) - (ilog2 d : Int) + 1) := by
    have e1 : (2 : ℚ) ^ ((ilog2 n : Int) - (ilog2 d : Int) + 1)
        = (2 : ℚ) ^ ((ilog2 n : Int) + 1) / (2 : ℚ) ^ (ilog2 d : Int) := by
      rw [← zpow_sub₀ h2]; congr 1; ring
    rw [e1, div_lt_div_iff₀ hdq hpb]
    calc (n : ℚ) * (2 : ℚ) ^ (ilog2 d : Int)
        < (2 : ℚ) ^ ((ilog2 n : Int) + 1) * (2 : ℚ) ^ (ilog2 d : Int) :=
          mul_lt_mul_of_pos_right qa2 hpb
      _ ≤ (2 : ℚ) ^ ((ilog2 n : Int) + 1) * (d : ℚ) :=
          mul_le_mul_of_nonneg_left qb1 (by positivity)
  have hlo : (2 : ℚ) ^ ((ilog2 n : Int) - (ilog2 d : Int) - 1) ≤ (n : ℚ) / (d : ℚ) := by
    have e1 : (2 : ℚ) ^ ((ilog2 n : Int) - (ilog2 d : Int) - 1)
        = (2 : ℚ) ^ (ilog2 n : Int) / (2 : ℚ) ^ ((ilog2 d : Int) + 1) := by
      rw [← zpow_sub₀ h2]; congr 1; ring
    have hpb2 : (0 : ℚ) < (2 : ℚ) ^ ((ilog2 d : Int) + 1) := by positivity
    rw [e1, div_le_div_iff₀ hpb2 hdq]
    calc (2 : ℚ) ^ (ilog2 n : Int) * (d : ℚ)
        ≤ (n : ℚ) * (d : ℚ) := mul_le_mul_of_nonneg_right qa1 hdq.le
      _ ≤ (n : ℚ) * (2 : ℚ) ^ ((ilog2 d : Int) + 1) :=
          mul_le_mul_of_nonneg_left qb2.le hnq.le
  unfold floorLog2
  simp only
  split_ifs with hc
  · refine ⟨?_, hup⟩
    have hc2 : ((d * 2 ^ ((ilog2 n : Int) - (ilog2 d : Int)).toNat : Nat) : ℚ)
        ≤ ((n * 2 ^ (-((ilog2 n : Int) - (ilog2 d : Int))).toNat : Nat) : ℚ) := by
      exact_mod_cast hc
    push_cast at hc2
    rw [two_zpow_split, div_le_div_iff₀ (by positivity) hdq]
    linarith
  · refine ⟨hlo, ?_⟩
    have hc2 : ((n * 2 ^ (-((ilog2 n : Int) - (ilog2 d : Int))).toNat : Nat) : ℚ)
        < ((d * 2 ^ ((ilog2 n : Int) - (ilog2 d : Int)).toNat : Nat) : ℚ) := by
      exact_mod_cast Nat.lt_of_not_le hc
    push_cast at hc2
    have e1 : (ilog2 n : Int) - (ilog2 d : Int) - 1 + 1 = (ilog2 n : Int) - (ilog2 d : Int) := by
      ring
    rw [e1, two_zpow_split, div_lt_div_iff₀ hdq (by positivity)]
    linarith

/-- The value of a finite rounding result: the nearest-even significand at the
exponent the rounding chose. -/
theorem roundPos_val (s : Bool) (n d : Nat) (hn : 0 < n) :
    roundPos s n d = inf s ∨
    ∃ m e, roundPos s n d = fin s m e ∧
      (m : ℚ) * (2 : ℚ) ^ e
        = (nearestEven (n * 2 ^ (-(max (floorLog2 n d - 52) (-1074))).toNat)
            (d * 2 ^ (max (floorLog2 n d - 52) (-1074)).toNat) : Nat)
          * (2 : ℚ) ^ (max (floorLog2 n d - 52) (-1074)) := by
  unfold roundPos
  rw [if_neg (by omega)]
  simp only
  split_ifs with h1 h2 h3
  · exact Or.inl rfl
  · right
    refine ⟨2 ^ 52, _, rfl, ?_⟩
    rw [h1, zpow_add_one₀ (by norm_num : (2 : ℚ) ≠ 0)]
    push_cast
    ring
  · exact Or.inl rfl
  · right
    exact ⟨_, _, rfl, rfl⟩

theorem two_zpow_lt_imp (a b : Int) (h : (2 : ℚ) ^ a < (2 : ℚ) ^ b) : a < b := by
  by_contra hc
  have : (2 : ℚ) ^ b ≤ (2 : ℚ) ^ a := zpow_le_zpow_right₀ (by norm_num) (by omega)
  linarith

/-- A rounding of a quotient below `2^1023` is finite. -/
theorem roundPos_isFinite (s : Bool) (n d : Nat) (hn : 0 < n) (hd : 0 < d)
    (hx : (n : ℚ) / (d : ℚ) < (2 : ℚ) ^ (1023 : Int)) :
    ∃ m e, roundPos s n d = fin s m e := by
  have hl : floorLog2 n d < 1023 :=
    two_zpow_lt_imp _ _ (lt_of_le_of_lt (floorLog2_spec n d hn hd).1 hx)
  unfold roundPos
  rw [if_neg (by omega)]
  simp only
  have hE : max (floorLog2 n d - 52) (-1074) ≤ 970 := by omega
  split_ifs with h1 h2 h3
  · omega
  · exact ⟨_, _, rfl⟩
  · omega
  · exact ⟨_, _, rfl⟩

/-- A finite rounding result keeps the sign and lies within half a unit in the
last place of the quotient. -/
theorem roundPos_err (s : Bool) (n d : Nat) (hn : 0 < n) (hd : 0 < d)
    (s1 : Bool) (m : Nat) (e : Int) (h : roundPos s n d = fin s1 m e) :
    s1 = s ∧ |(m : ℚ) * (2 : ℚ) ^ e - (n : ℚ) / (d : ℚ)|
      ≤ (2 : ℚ) ^ (max (floorLog2 n d - 52) (-1074)) / 2 := by
  rcases roundPos_val s n d hn with h0 | ⟨m0, e0, h0, hv⟩
  · rw [h0] at h; cases h
  · rw [h0] at h
    injection h with hs hm he
    subst hs; subst hm; subst he
    refine ⟨rfl, ?_⟩
    rw [hv]
    have hne := nearestEven_err (n * 2 ^ (-(max (floorLog2 n d - 52) (-1074))).toNat)
      (d * 2 ^ (max (floorLog2 n d - 52) (-1074)).toNat) (by positivity)
    rw [scaled_div n d _ hd] at hne
    have hp : (0 : ℚ) < (2 : ℚ) ^ (max (floorLog2 n d - 52) (-1074)) := by positivity
    have key : ∀ (q x p : ℚ), 0 < p → |q - x / p| ≤ 1 / 2 → |q * p - x| ≤ p / 2 := by
      intro q x p hp0 hq
      have e1 : q * p - x = (q - x / p) * p := by field_simp
      rw [e1, abs_mul, abs_of_pos hp0]
      calc |q - x / p| * p ≤ 1 / 2 * p := mul_le_mul_of_nonneg_right hq hp0.le
        _ = p / 2 := by ring
    exact key _ _ _ hp hne

/-- Rounding is exact on a quotient that is a binary64 value: `M * 2^E` with a
significand below `2^53` and `E ≥ -1074`. -/
theorem roundPos_exact (s : Bool) (n d : Nat) (hn : 0 < n) (hd : 0 < d)
    (M : Nat) (E : Int) (hM : M < 2 ^ 53) (hE : -1074 ≤ E)
    (hx : (n : ℚ) / (d : ℚ) = (M : ℚ) * (2 : ℚ) ^ E)
    (s1 : Bool) (m : Nat) (e : Int) (h : roundPos s n d = fin s1 m e) :
    s1 = s ∧ (m : ℚ) * (2 : ℚ) ^ e = (n : ℚ) / (d : ℚ) := by
  rcases roundPos_val s n d hn with h0 | ⟨m0, e0, h0, hv⟩
  · rw [h0] at h; cases h
  · rw [h0] at h
    injection h with hs hm he
    subst hs; subst hm; subst he
    refine ⟨rfl, ?_⟩
    rw [hv]
    have h2 : (2 : ℚ) ≠ 0 := by norm_num
    -- the chosen exponent is at most E
    have hl : floorLog2 n d < 53 + E := by
      apply two_zpow_lt_imp
      refine lt_of_le_of_lt (floorLog2_spec n d hn hd).1 ?_
      rw [hx, zpow_add₀ h2]
      have : (M : ℚ) < (2 : ℚ) ^ (53 : Int) := by
        have h53 : (2 : ℚ) ^ (53 : Int) = ((2 ^ 53 : Nat) : ℚ) := by norm_num
        rw [h53]
        exact_mod_cast hM
      exact mul_lt_mul_of_pos_right this (by positivity)
    have hle : max (floorLog2 n d - 52) (-1074) ≤ E := by omega
    generalize max (floorLog2 n d - 52) (-1074) = F at hle ⊢
    have hdq : (d : ℚ) ≠ 0 := by exact_mod_cast hd.ne'
    have hq := scaled_div n d F hd
    have hK : ((n * 2 ^ (-F).toNat : Nat) : ℚ)
        = ((M * 2 ^ (E - F).toNat * (d * 2 ^ F.toNat) : Nat) : ℚ) := by
      have hD : ((d * 2 ^ F.toNat : Nat) : ℚ) ≠ 0 := by positivity
      rw [div_eq_iff hD] at hq
      rw [hq, hx]
      have e3 : (2 : ℚ) ^ E / (2 : ℚ) ^ F = (2 : ℚ) ^ (E - F).toNat := by
        rw [← zpow_sub₀ h2, ← zpow_natCast, Int.toNat_of_nonneg (by omega)]
      push_cast
      rw [← e3]
      field_simp
    have hK2 : n * 2 ^ (-F).toNat = M * 2 ^ (E - F).toNat * (d * 2 ^ F.toNat) := by
      exact_mod_cast hK
    rw [nearestEven_exact _ _ _ (by positivity) hK2, hx]
    have e3 : (2 : ℚ) ^ E = (2 : ℚ) ^ (E - F).toNat * (2 : ℚ) ^ F := by
      rw [← zpow_natCast, Int.toNat_of_nonneg (by omega), ← zpow_add₀ h2]
      congr 1; ring
    rw [e3]
    push_cast
    ring

theorem toRat_fin (s : Bool) (m : Nat) (e : Int) :
    toRat (fin s m e) = (if s then -1 else 1) * ((m : ℚ) * (2 : ℚ) ^ e) := by
  unfold toRat; ring

/-- In the normal range a finite rounding result has relative error at most `2^-53`. -/
theorem roundPos_relErr (s : Bool) (n d : Nat) (hn : 0 < n) (hd : 0 < d)
    (hx : (2 : ℚ) ^ (-1022 : Int) ≤ (n : ℚ) / (d : ℚ))
    (s1 : Bool) (m : Nat) (e : Int) (h : roundPos s n d = fin s1 m e) :
    |(m : ℚ) * (2 : ℚ) ^ e - (n : ℚ) / (d : ℚ)| ≤ (n : ℚ) / (d : ℚ) / 2 ^ 53 := by
  obtain ⟨hlo, hhi⟩ := floorLog2_spec n d hn hd
  have hl : -1022 < floorLog2 n d + 1 := two_zpow_lt_imp _ _ (lt_of_le_of_lt hx hhi)
  have hmax : max (floorLog2 n d - 52) (-1074) = floorLog2 n d - 52 := by omega
  have h1 := (roundPos_err s n d hn hd s1 m e h).2
  rw [hmax] at h1
  refine le_trans h1 ?_
  have e1 : (2 : ℚ) ^ (floorLog2 n d - 52) / 2 = (2 : ℚ) ^ floorLog2 n d / 2 ^ 53 := by
    rw [zpow_sub₀ (by norm_num : (2 : ℚ) ≠ 0)]
    norm_num
    ring
  rw [e1]
  exact div_le_div_of_nonneg_right hlo (by positivity)

theorem div_fin (s1 : Bool) (m1 : Nat) (e1 : Int) (s2 : Bool) (m2 : Nat) (e2 : Int)
    (h2 : 0 < m2) :
    F64.div (fin s1 m1 e1) (fin s2 m2 e2)
      = roundPos (xor s1 s2) (m1 * 2 ^ (e1 - e2).toNat) (m2 * 2 ^ (e2 - e1).toNat) := by
  simp [F64.div, h2.ne']

theorem div_ratio (m1 : Nat) (e1 : Int) (m2 : Nat) (e2 : Int) (h2 : 0 < m2) :
    ((m1 * 2 ^ (e1 - e2).toNat : Nat) : ℚ) / ((m2 * 2 ^ (e2 - e1).toNat : Nat) : ℚ)
      = ((m1 : ℚ) * (2 : ℚ) ^ e1) / ((m2 : ℚ) * (2 : ℚ) ^ e2) := by
  have h := scaled_div m1 m2 (e2 - e1) h2
  have e3 : -(e2 - e1) = e1 - e2 := by ring
  rw [e3] at h
  rw [h, zpow_sub₀ (by norm_num : (2 : ℚ) ≠ 0)]
  have hm : (m2 : ℚ) ≠ 0 := by exact_mod_cast h2.ne'
  field_simp

set_option maxRecDepth 10000 in
/-- For exponents 0 to 22 `math.Pow10` is the literal of the power of ten. -/
theorem Pow10_small_eq : ∀ k : Nat, k < 23 → Pow10 (k : Int) = roundPos false (10 ^ k) 1 := by
  decide

/-- For exponents 0 to 22 `math.Pow10` is finite, positive and exactly the power of ten. -/
theorem Pow10_small (k : Nat) (hk : k < 23) :
    ∃ m e, Pow10 (k : Int) = fin false m e ∧ 0 < m ∧ (m : ℚ) * (2 : ℚ) ^ e = (10 : ℚ) ^ k := by
  rw [Pow10_small_eq k hk]
  have hn : 0 < 10 ^ k := by positivity
  have hx : ((10 ^ k : Nat) : ℚ) / ((1 : Nat) : ℚ) = ((5 ^ k : Nat) : ℚ) * (2 : ℚ) ^ (k : Int) := by
    rw [zpow_natCast]
    push_cast
    rw [div_one, ← mul_pow]
    norm_num
  have h5 : 5 ^ k < 2 ^ 53 := by
    calc 5 ^ k ≤ 5 ^ 22 := Nat.pow_le_pow_right (by norm_num) (by omega)
      _ < 2 ^ 53 := by norm_num
  have hlt : ((10 ^ k : Nat) : ℚ) / ((1 : Nat) : ℚ) < (2 : ℚ) ^ (1023 : Int) := by
    have h10 : 10 ^ k ≤ 10 ^ 22 := Nat.pow_le_pow_right (by norm_num) (by omega)
    have : ((10 ^ k : Nat) : ℚ) ≤ ((10 ^ 22 : Nat) : ℚ) := by exact_mod_cast h10
    have h22 : ((10 ^ 22 : Nat) : ℚ) < (2 : ℚ) ^ (1023 : Int) := by norm_num
    simp only [Nat.cast_one, div_one]
    linarith
  obtain ⟨m, e, hme⟩ := roundPos_isFinite false (10 ^ k) 1 hn (by norm_num) hlt
  obtain ⟨_, hv⟩ := roundPos_exact false (10 ^ k) 1 hn (by norm_num) (5 ^ k) k h5 (by omega) hx
    false m e hme
  refine ⟨m, e, hme, ?_, ?_⟩
  · by_contra hm0
    have hm0 : m = 0 := by omega
    rw [hm0] at hv
    push_cast at hv
    have hp : (0 : ℚ) < (10 : ℚ) ^ k := by positivity
    simp at hv
    linarith
  · rw [hv]
    push_cast
    simp

theorem nat_representable (c : Nat) (hc : c ≤ 2 ^ 53) :
    ∃ (M : Nat) (E : Int), M < 2 ^ 53 ∧ -1074 ≤ E ∧ (c : ℚ) = (M : ℚ) * (2 : ℚ) ^ E := by
  rcases Nat.lt_or_ge c (2 ^ 53) with h | h
  · exact ⟨c, 0, h, by norm_num, by simp⟩
  · have hc2 : c = 2 ^ 53 := le_antisymm hc h
    refine ⟨2 ^ 52, 1, by norm_num, by norm_num, ?_⟩
    rw [hc2]
    norm_num

/-- The sign of a rational given as sign bit and magnitude. -/
theorem signed_cast (a : Int) :
    (a : ℚ) = (if decide (a < 0) = true then -1 else 1) * ((a.natAbs : Nat) : ℚ) := by
  rw [Nat.cast_natAbs, Int.cast_abs]
  by_cases h : a < 0
  · have hq : (a : ℚ) < 0 := by exact_mod_cast h
    simp only [h, decide_True, if_true]
    rw [abs_of_neg hq]; ring
  · have hq : (0 : ℚ) ≤ (a : ℚ) := by exact_mod_cast (not_lt.mp h)
    simp only [h, decide_False]
    rw [abs_of_nonneg hq]; simp

/-- The conversion `float64(a)` is exact for `|a| ≤ 2^53`. -/
theorem ofInt_exact (a : Int) (ha : a.natAbs ≤ 2 ^ 53) :
    ∃ m e, ofInt a = fin (decide (a < 0)) m e ∧ (m : ℚ) * (2 : ℚ) ^ e = ((a.natAbs : Nat) : ℚ) := by
  unfold ofInt
  rcases Nat.eq_zero_or_pos a.natAbs with h0 | hpos
  · refine ⟨0, -1074, ?_, ?_⟩
    · rw [h0]; simp [roundPos]
    · rw [h0]; simp
  · have hlt : ((a.natAbs : Nat) : ℚ) / ((1 : Nat) : ℚ) < (2 : ℚ) ^ (1023 : Int) := by
      have h1 : ((a.natAbs : Nat) : ℚ) ≤ ((2 ^ 53 : Nat) : ℚ) := by exact_mod_cast ha
      have h2 : ((2 ^ 53 : Nat) : ℚ) < (2 : ℚ) ^ (1023 : Int) := by norm_num
      simp only [Nat.cast_one, div_one]
      linarith
    obtain ⟨m, e, hme⟩ := roundPos_isFinite (decide (a < 0)) a.natAbs 1 hpos (by norm_num) hlt
    obtain ⟨M, E, hM, hE, hrep⟩ := nat_representable a.natAbs ha
    have hx : ((a.natAbs : Nat) : ℚ) / ((1 : Nat) : ℚ) = (M : ℚ) * (2 : ℚ) ^ E := by
      simp only [Nat.cast_one, div_one]; exact hrep
    obtain ⟨_, hv⟩ := roundPos_exact _ a.natAbs 1 hpos (by norm_num) M E hM hE hx _ m e hme
    refine ⟨m, e, hme, ?_⟩
    rw [hv]; simp

theorem wrapInt64_small (i : Int) (h1 : -2 ^ 63 ≤ i) (h2 : i < 2 ^ 63) : wrapInt64 i = i := by
  unfold wrapInt64
  norm_num at h1 h2 ⊢
  omega

/-- For `|a| ≤ 2^53` and `-8 ≤ u ≤ 14`, `ToUnit` is one rounding of the exact
quotient `|a| / 10^(u+8)`, with the sign of `a`. -/
theorem ToUnit_round (a u : Int) (ha : a.natAbs ≤ 2 ^ 53)
    (hu1 : -8 ≤ u) (hu2 : u ≤ 14) :
    ∃ N D : Nat, 0 < D ∧ Amount.ToUnit a u = roundPos (decide (a < 0)) N D ∧
      (N : ℚ) / (D : ℚ) = ((a.natAbs : Nat) : ℚ) / (10 : ℚ) ^ (u + 8).toNat := by
  unfold Amount.ToUnit
  rw [wrapInt64_small (u + 8) (by norm_num; omega) (by norm_num; omega)]
  obtain ⟨k, hk⟩ := Int.eq_ofNat_of_zero_le (show 0 ≤ u + 8 by omega)
  rw [hk, Int.toNat_ofNat]
  have hk23 : k < 23 := by omega
  obtain ⟨m2, e2, hp, hm2, hv2⟩ := Pow10_small k hk23
  obtain ⟨m1, e1, ho, hv1⟩ := ofInt_exact a ha
  rw [hp, ho, div_fin _ _ _ _ _ _ hm2, Bool.xor_false]
  refine ⟨_, _, by positivity, rfl, ?_⟩
  rw [div_ratio _ _ _ _ hm2, hv1, hv2]

theorem roundPos_zero (s : Bool) (d : Nat) : roundPos s 0 d = fin s 0 (-1074) := by
  simp [roundPos]

theorem ToUnit_core (a u : Int) (ha : a.natAbs ≤ 2 ^ 53)
    (hu1 : -8 ≤ u) (hu2 : u ≤ 14) :
    (Amount.ToUnit a u).isFinite = true ∧
    |toRat (Amount.ToUnit a u) - (a : ℚ) / (10 : ℚ) ^ (u + 8).toNat|
      ≤ |(a : ℚ) / (10 : ℚ) ^ (u + 8).toNat| / 2 ^ 53 ∧
    (∀ c : Int, a = c * 10 ^ (u + 8).toNat →
      toRat (Amount.ToUnit a u) = (a : ℚ) / (10 : ℚ) ^ (u + 8).toNat) := by
  obtain ⟨N, D, hD, hR, hND⟩ := ToUnit_round a u ha hu1 hu2
  have hk23 : (u + 8).toNat < 23 := by omega
  generalize (u + 8).toNat = k at hND hk23 ⊢
  have hDq : (0 : ℚ) < (D : ℚ) := by exact_mod_cast hD
  have h10 : (0 : ℚ) < (10 : ℚ) ^ k := by positivity
  have hsgn := signed_cast a
  rcases Nat.eq_zero_or_pos N with hN | hN
  · -- a = 0
    have hz : ((a.natAbs : Nat) : ℚ) = 0 := by
      rw [hN] at hND
      simp only [Nat.cast_zero, zero_div] at hND
      have := hND.symm
      rw [div_eq_zero_iff] at this
      rcases this with h | h
      · exact h
      · exact absurd h h10.ne'
    have ha0 : (a : ℚ) = 0 := by rw [hsgn, hz]; ring
    rw [hR, hN, roundPos_zero]
    refine ⟨rfl, ?_, ?_⟩
    · rw [toRat_fin, ha0]; simp
    · intro c _; rw [toRat_fin, ha0]; simp
  · have hapos : (1 : ℚ) ≤ ((a.natAbs : Nat) : ℚ) := by
      have : 0 < a.natAbs := by
        by_contra h0
        have h0 : a.natAbs = 0 := by omega
        rw [h0] at hND
        simp only [Nat.cast_zero, zero_div] at hND
        have hNq : (0 : ℚ) < (N : ℚ) := by exact_mod_cast hN
        have : (0 : ℚ) < (N : ℚ) / (D : ℚ) := by positivity
        linarith
      exact_mod_cast this
    have hale : ((a.natAbs : Nat) : ℚ) ≤ (2 : ℚ) ^ 53 := by exact_mod_cast ha
    have hk10 : (10 : ℚ) ^ k ≤ (10 : ℚ) ^ 22 :=
      pow_le_pow_right₀ (by norm_num) (by omega)
    have hk1 : (1 : ℚ) ≤ (10 : ℚ) ^ k := one_le_pow₀ (by norm_num)
    have hlt : (N : ℚ) / (D : ℚ) < (2 : ℚ) ^ (1023 : Int) := by
      rw [hND]
      have h1 : ((a.natAbs : Nat) : ℚ) / (10 : ℚ) ^ k ≤ ((a.natAbs : Nat) : ℚ) :=
        div_le_self (by linarith) hk1
      have h2 : (2 : ℚ) ^ 53 < (2 : ℚ) ^ (1023 : Int) := by norm_num
      linarith
    have hge : (2 : ℚ) ^ (-1022 : Int) ≤ (N : ℚ) / (D : ℚ) := by
      rw [hND, le_div_iff₀ h10]
      have h1 : (2 : ℚ) ^ (-1022 : Int) * (10 : ℚ) ^ k ≤ (2 : ℚ) ^ (-1022 : Int) * (10 : ℚ) ^ 22 :=
        mul_le_mul_of_nonneg_left hk10 (by positivity)
      have h2 : (2 : ℚ) ^ (-1022 : Int) * (10 : ℚ) ^ 22 ≤ 1 := by
        rw [zpow_neg, inv_mul_le_iff₀ (by positivity)]
        norm_num
      linarith
    obtain ⟨m, e, hme⟩ := roundPos_isFinite (decide (a < 0)) N D hN hD hlt
    have hrel := roundPos_relErr _ N D hN hD hge _ m e hme
    rw [hR, hme]
    refine ⟨rfl, ?_, ?_⟩
    · rw [toRat_fin, hND] at *
      have e1 : (if decide (a < 0) = true then (-1 : ℚ) else 1) * ((m : ℚ) * (2 : ℚ) ^ e)
            - (a : ℚ) / (10 : ℚ) ^ k
          = (if decide (a < 0) = true then (-1 : ℚ) else 1)
            * ((m : ℚ) * (2 : ℚ) ^ e - ((a.natAbs : Nat) : ℚ) / (10 : ℚ) ^ k) := by
        rw [hsgn]; ring
      have e2 : |(a : ℚ) / (10 : ℚ) ^ k| = ((a.natAbs : Nat) : ℚ) / (10 : ℚ) ^ k := by
        rw [abs_div, abs_of_pos h10, Nat.cast_natAbs, Int.cast_abs]
      have e3 : |(if decide (a < 0) = true then (-1 : ℚ) else 1)| = 1 := by
        split_ifs <;> simp
      rw [e1, e2, abs_mul, e3, one_mul]
      exact hrel
    · intro c hc
      have hcabs : a.natAbs = c.natAbs * 10 ^ k := by
        rw [hc, Int.natAbs_mul, Int.natAbs_pow]; rfl
      have hcle : c.natAbs ≤ 2 ^ 53 := by
        have : c.natAbs * 1 ≤ c.natAbs * 10 ^ k :=
          Nat.mul_le_mul_left _ (Nat.one_le_pow _ _ (by norm_num))
        omega
      obtain ⟨M, E, hM, hE, hrep⟩ := nat_representable c.natAbs hcle
      have hx : (N : ℚ) / (D : ℚ) = (M : ℚ) * (2 : ℚ) ^ E := by
        rw [hND, hcabs, ← hrep]
        push_cast
        field_simp
      obtain ⟨_, hv⟩ := roundPos_exact _ N D hN hD M E hM hE hx _ m e hme
      rw [toRat_fin, hv, hND]
      rw [hsgn]; ring

/-- Adding one half to a binary64 below `2^52` (other than `1/2 - 2^-54`) leaves
the sum more than half a unit in the last place below the next integer. -/
theorem half_gap (m : Nat) (e l : Int) (T : Nat) (hm : m < 2 ^ 53)
    (hT1 : (T : ℚ) ≤ (m : ℚ) * (2 : ℚ) ^ e + 1 / 2)
    (hT2 : (m : ℚ) * (2 : ℚ) ^ e + 1 / 2 < (T : ℚ) + 1)
    (hl1 : (2 : ℚ) ^ l ≤ (m : ℚ) * (2 : ℚ) ^ e + 1 / 2)
    (hX : (m : ℚ) * (2 : ℚ) ^ e < (2 : ℚ) ^ (52 : Int))
    (hne : (m : ℚ) * (2 : ℚ) ^ e ≠ 1 / 2 - 1 / 2 ^ 54) :
    (m : ℚ) * (2 : ℚ) ^ e + (2 : ℚ) ^ (l - 53) < (T : ℚ) + 1 / 2 := by
  have h2 : (2 : ℚ) ≠ 0 := by norm_num
  have h12 : (1 : ℚ) ≤ 2 := by norm_num
  have hmq : (m : ℚ) < (2 : ℚ) ^ (53 : Int) := by
    have h53 : (2 : ℚ) ^ (53 : Int) = ((2 ^ 53 : Nat) : ℚ) := by norm_num
    rw [h53]; exact_mod_cast hm
  have hl52 : l ≤ 52 := by
    have : (2 : ℚ) ^ l < (2 : ℚ) ^ (53 : Int) := by
      have : (2 : ℚ) ^ (52 : Int) + 1 / 2 < (2 : ℚ) ^ (53 : Int) := by norm_num
      linarith
    have := two_zpow_lt_imp _ _ this
    omega
  rcases le_or_lt 0 e with he | he
  · -- the value is a natural number
    obtain ⟨k, hk⟩ := Int.eq_ofNat_of_zero_le he
    have hXn : (m : ℚ) * (2 : ℚ) ^ e = ((m * 2 ^ k : Nat) : ℚ) := by
      rw [hk, zpow_natCast]; push_cast; ring
    rw [hXn] at hT1 hT2 hl1 hX ⊢
    have hlt : m * 2 ^ k < 2 ^ 52 := by
      have h52 : (2 : ℚ) ^ (52 : Int) = ((2 ^ 52 : Nat) : ℚ) := by norm_num
      rw [h52] at hX; exact_mod_cast hX
    have hTx : T = m * 2 ^ k := by
      have a1 : (T : ℚ) < ((m * 2 ^ k : Nat) : ℚ) + 1 := by linarith
      have a2 : ((m * 2 ^ k : Nat) : ℚ) < (T : ℚ) + 1 := by linarith
      have a1' : T < m * 2 ^ k + 1 := by exact_mod_cast a1
      have a2' : m * 2 ^ k < T + 1 := by exact_mod_cast a2
      omega
    have hl51 : l < 52 := by
      apply two_zpow_lt_imp
      have : ((m * 2 ^ k : Nat) : ℚ) + 1 ≤ ((2 ^ 52 : Nat) : ℚ) := by exact_mod_cast hlt
      have h52 : (2 : ℚ) ^ (52 : Int) = ((2 ^ 52 : Nat) : ℚ) := by norm_num
      rw [h52]; linarith
    have hg : (2 : ℚ) ^ (l - 53) < 1 / 2 := by
      have h1 : (2 : ℚ) ^ (l - 53) ≤ (2 : ℚ) ^ (-2 : Int) := zpow_le_zpow_right₀ h12 (by omega)
      have h3 : (2 : ℚ) ^ (-2 : Int) < 1 / 2 := by norm_num
      exact lt_of_le_of_lt h1 h3
    rw [hTx]
    generalize (2 : ℚ) ^ (l - 53) = g at hg ⊢
    linarith
  · -- the gap to the next half-integer is a positive multiple of 2^e
    have hpe : (0 : ℚ) < (2 : ℚ) ^ e := by positivity
    have hj : ∃ j : Int, (T : ℚ) + 1 / 2 - (m : ℚ) * (2 : ℚ) ^ e = (j : ℚ) * (2 : ℚ) ^ e := by
      refine ⟨(2 * T + 1) * 2 ^ (-e - 1).toNat - m, ?_⟩
      have e1 : (2 : ℚ) ^ (-e - 1).toNat * (2 : ℚ) ^ e = 1 / 2 := by
        rw [← zpow_natCast, Int.toNat_of_nonneg (by omega), ← zpow_add₀ h2]
        have : -e - 1 + e = -1 := by ring
        rw [this]; norm_num
      push_cast
      have : ((2 * (T : ℚ) + 1) * (2 : ℚ) ^ (-e - 1).toNat - (m : ℚ)) * (2 : ℚ) ^ e
          = (2 * (T : ℚ) + 1) * ((2 : ℚ) ^ (-e - 1).toNat * (2 : ℚ) ^ e) - (m : ℚ) * (2 : ℚ) ^ e := by
        ring
      rw [this, e1]; ring
    obtain ⟨j, hj⟩ := hj
    have hW : (0 : ℚ) < (j : ℚ) * (2 : ℚ) ^ e := by rw [← hj]; linarith
    have hj1 : (1 : ℚ) ≤ (j : ℚ) := by
      have : (0 : ℚ) < (j : ℚ) := by
        by_contra hc
        have : (j : ℚ) * (2 : ℚ) ^ e ≤ 0 := mul_nonpos_of_nonpos_of_nonneg (not_lt.mp hc) hpe.le
        linarith
      have : (0 : Int) < j := by exact_mod_cast this
      exact_mod_cast this
    have hWge : (2 : ℚ) ^ e ≤ (T : ℚ) + 1 / 2 - (m : ℚ) * (2 : ℚ) ^ e := by
      rw [hj]
      calc (2 : ℚ) ^ e = 1 * (2 : ℚ) ^ e := by ring
        _ ≤ (j : ℚ) * (2 : ℚ) ^ e := mul_le_mul_of_nonneg_right hj1 hpe.le
    rcases lt_or_le (l - 53) e with hle | hle
    · have : (2 : ℚ) ^ (l - 53) < (2 : ℚ) ^ e := zpow_lt_zpow_right₀ (by norm_num) hle
      linarith
    · -- the sum has crossed into the next binade
      have hXl : (m : ℚ) * (2 : ℚ) ^ e < (2 : ℚ) ^ l := by
        calc (m : ℚ) * (2 : ℚ) ^ e < (2 : ℚ) ^ (53 : Int) * (2 : ℚ) ^ e :=
              mul_lt_mul_of_pos_right hmq hpe
          _ = (2 : ℚ) ^ (53 + e) := by rw [zpow_add₀ h2]
          _ ≤ (2 : ℚ) ^ l := zpow_le_zpow_right₀ h12 (by omega)
      rcases le_or_lt 0 l with hl0 | hl0
      · obtain ⟨k, hk⟩ := Int.eq_ofNat_of_zero_le hl0
        have hlN : (2 : ℚ) ^ l = ((2 ^ k : Nat) : ℚ) := by
          rw [hk, zpow_natCast]; push_cast; ring
        have hTl : (2 : ℚ) ^ l ≤ (T : ℚ) := by
          rw [hlN]
          have : ((2 ^ k : Nat) : ℚ) < (T : ℚ) + 1 := by rw [← hlN]; linarith
          have : 2 ^ k < T + 1 := by exact_mod_cast this
          have : 2 ^ k ≤ T := by omega
          exact_mod_cast this
        have hg : (2 : ℚ) ^ (l - 53) ≤ 1 / 2 := by
          have h1 : (2 : ℚ) ^ (l - 53) ≤ (2 : ℚ) ^ (-1 : Int) := zpow_le_zpow_right₀ h12 (by omega)
          have h3 : (2 : ℚ) ^ (-1 : Int) = 1 / 2 := by norm_num
          exact le_trans h1 (le_of_eq h3)
        generalize (2 : ℚ) ^ (l - 53) = g at hg ⊢
        generalize (2 : ℚ) ^ l = gl at hXl hTl
        linarith
      · -- l ≤ -1: the sum is below 1
        have hl1' : (2 : ℚ) ^ l ≤ 1 / 2 :=
          le_trans (zpow_le_zpow_right₀ h12 (by omega : l ≤ -1)) (by norm_num)
        have hl54 : (2 : ℚ) ^ (l - 53) ≤ 1 / 2 ^ 54 :=
          le_trans (zpow_le_zpow_right₀ h12 (by omega : l - 53 ≤ -54)) (by norm_num)
        have hXhalf : (m : ℚ) * (2 : ℚ) ^ e < 1 / 2 := lt_of_lt_of_le hXl hl1'
        have hT0 : T = 0 := by
          have : (T : ℚ) < 1 := by linarith
          have : T < 1 := by exact_mod_cast this
          omega
        subst hT0
        simp only [Nat.cast_zero, zero_add] at hj hWge ⊢
        rcases lt_or_le e (-54) with he54 | he54
        · have hq : (m : ℚ) * (2 : ℚ) ^ e < 1 / 4 := by
            calc (m : ℚ) * (2 : ℚ) ^ e < (2 : ℚ) ^ (53 : Int) * (2 : ℚ) ^ e :=
                  mul_lt_mul_of_pos_right hmq hpe
              _ = (2 : ℚ) ^ (53 + e) := by rw [zpow_add₀ h2]
              _ ≤ (2 : ℚ) ^ (-2 : Int) := zpow_le_zpow_right₀ h12 (by omega)
              _ = 1 / 4 := by norm_num
          have h4 : (1 : ℚ) / 2 ^ 54 < 1 / 4 := by norm_num
          generalize (2 : ℚ) ^ (l - 53) = g at hl54 ⊢
          generalize (m : ℚ) * (2 : ℚ) ^ e = X at hq ⊢
          linarith
        · have he' : e = -54 := by omega
          subst he'
          have h54 : (2 : ℚ) ^ (-54 : Int) = 1 / 2 ^ 54 := by norm_num
          rw [h54] at hWge hne ⊢
          generalize (2 : ℚ) ^ (l - 53) = g at hl54 ⊢
          generalize (m : ℚ) * (1 / 2 ^ 54 : ℚ) = X at hWge hne ⊢
          rcases eq_or_lt_of_le hWge with heq | hlt
          · exfalso; apply hne; linarith
          · linarith

theorem nearestEven_ge (N D : Nat) : N / D ≤ nearestEven N D := by
  unfold nearestEven
  split_ifs <;> omega

theorem nearestEven_le (N D : Nat) : nearestEven N D ≤ N / D + 1 := by
  unfold nearestEven
  split_ifs <;> omega

theorem nearestEven_lt (N D K : Nat) (hD : 0 < D)
    (h : (N : ℚ) / (D : ℚ) < (K : ℚ) - 1 / 2) : nearestEven N D < K := by
  have hDq : (0 : ℚ) < (D : ℚ) := by exact_mod_cast hD
  have hdiv : (N : ℚ) / (D : ℚ) = ((N / D : Nat) : ℚ) + ((N % D : Nat) : ℚ) / (D : ℚ) := by
    have h0 := Nat.div_add_mod N D
    have h2 : (N : ℚ) = (D : ℚ) * ((N / D : Nat) : ℚ) + ((N % D : Nat) : ℚ) := by
      exact_mod_cast h0.symm
    field_simp
    linarith
  have hr0 : (0 : ℚ) ≤ ((N % D : Nat) : ℚ) / (D : ℚ) := by positivity
  unfold nearestEven
  split_ifs with hc
  · have h2 : (D : ℚ) ≤ 2 * ((N % D : Nat) : ℚ) := by
      rcases hc with hc | ⟨hc, _⟩
      · exact_mod_cast hc.le
      · exact_mod_cast hc.ge
    have h3 : 1 / 2 ≤ ((N % D : Nat) : ℚ) / (D : ℚ) := by
      rw [le_div_iff₀ hDq]; linarith
    have h4 : ((N / D : Nat) : ℚ) + 1 < (K : ℚ) := by linarith
    exact_mod_cast h4
  · have h4 : ((N / D : Nat) : ℚ) < (K : ℚ) := by linarith
    exact_mod_cast h4

/-- Every result of the rounding function is a binary64 value. -/
theorem roundPos_valid (s : Bool) (n d : Nat) (hd : 0 < d) : Valid (roundPos s n d) := by
  rcases Nat.eq_zero_or_pos n with hn | hn
  · rw [hn, roundPos_zero]; simp [Valid]
  obtain ⟨hlo, hhi⟩ := floorLog2_spec n d hn hd
  have h2 : (2 : ℚ) ≠ 0 := by norm_num
  have hsd := scaled_div n d (max (floorLog2 n d - 52) (-1074)) hd
  have hEge : floorLog2 n d - 52 ≤ max (floorLog2 n d - 52) (-1074) := le_max_left _ _
  have hE1 : (-1074 : Int) ≤ max (floorLog2 n d - 52) (-1074) := le_max_right _ _
  have hEcases : max (floorLog2 n d - 52) (-1074) = -1074 ∨
      max (floorLog2 n d - 52) (-1074) = floorLog2 n d - 52 := by omega
  have hDpos : 0 < d * 2 ^ (max (floorLog2 n d - 52) (-1074)).toNat := by positivity
  unfold roundPos
  rw [if_neg (by omega)]
  simp only
  generalize max (floorLog2 n d - 52) (-1074) = E at hsd hEge hE1 hEcases hDpos ⊢
  generalize n * 2 ^ (-E).toNat = N at hsd ⊢
  generalize d * 2 ^ E.toNat = D at hsd hDpos ⊢
  have hDq : (0 : ℚ) < (D : ℚ) := by exact_mod_cast hDpos
  have hpE : (0 : ℚ) < (2 : ℚ) ^ E := by positivity
  split_ifs with h1 h3 h4
  · simp [Valid]
  · refine ⟨by norm_num, by omega, by omega, Or.inl (le_refl _)⟩
  · simp [Valid]
  · have hup : N / D < 2 ^ 53 := by
      rw [Nat.div_lt_iff_lt_mul hDpos]
      have : (N : ℚ) / (D : ℚ) < (2 : ℚ) ^ (53 : Int) := by
        rw [hsd, div_lt_iff₀ hpE, ← zpow_add₀ h2]
        exact lt_of_lt_of_le hhi (zpow_le_zpow_right₀ (by norm_num) (by omega))
      rw [div_lt_iff₀ hDq] at this
      have h53 : (2 : ℚ) ^ (53 : Int) = ((2 ^ 53 : Nat) : ℚ) := by norm_num
      rw [h53] at this
      exact_mod_cast this
    have hle := nearestEven_le N D
    refine ⟨by omega, hE1, by omega, ?_⟩
    rcases hEcases with hc | hc
    · exact Or.inr hc
    · left
      have hlow : 2 ^ 52 ≤ N / D := by
        rw [Nat.le_div_iff_mul_le hDpos]
        have : (2 : ℚ) ^ (52 : Int) ≤ (N : ℚ) / (D : ℚ) := by
          rw [hsd, le_div_iff₀ hpE, ← zpow_add₀ h2]
          exact le_trans (zpow_le_zpow_right₀ (by norm_num) (by omega)) hlo
        rw [le_div_iff₀ hDq] at this
        have h52 : (2 : ℚ) ^ (52 : Int) = ((2 ^ 52 : Nat) : ℚ) := by norm_num
        rw [h52] at this
        exact_mod_cast this
      exact le_trans hlow (nearestEven_ge N D)

/-- Rounding `X + 1/2`, for a binary64 `X = m * 2^e` below `2^52` other than
`1/2 - 2^-54`, gives a value with the same integer part as `X + 1/2`. -/
theorem roundPos_add_half (s : Bool) (n d : Nat) (hd : 0 < d) (m : Nat) (e : Int)
    (hm : m < 2 ^ 53)
    (hS : (n : ℚ) / (d : ℚ) = (m : ℚ) * (2 : ℚ) ^ e + 1 / 2)
    (hX : (m : ℚ) * (2 : ℚ) ^ e < (2 : ℚ) ^ (52 : Int))
    (hne : (m : ℚ) * (2 : ℚ) ^ e ≠ 1 / 2 - 1 / 2 ^ 54)
    (T : Nat) (hT1 : (T : ℚ) ≤ (m : ℚ) * (2 : ℚ) ^ e + 1 / 2)
    (hT2 : (m : ℚ) * (2 : ℚ) ^ e + 1 / 2 < (T : ℚ) + 1) :
    ∃ q e1, roundPos s n d = fin s q e1 ∧
      (T : ℚ) ≤ (q : ℚ) * (2 : ℚ) ^ e1 ∧ (q : ℚ) * (2 : ℚ) ^ e1 < (T : ℚ) + 1 := by
  have h2 : (2 : ℚ) ≠ 0 := by norm_num
  have h12 : (1 : ℚ) ≤ 2 := by norm_num
  have hX0 : (0 : ℚ) ≤ (m : ℚ) * (2 : ℚ) ^ e := by positivity
  have hdq : (0 : ℚ) < (d : ℚ) := by exact_mod_cast hd
  have hn : 0 < n := by
    rcases Nat.eq_zero_or_pos n with h0 | h0
    · rw [h0] at hS; simp only [Nat.cast_zero, zero_div] at hS; linarith
    · exact h0
  obtain ⟨hlo, hhi⟩ := floorLog2_spec n d hn hd
  rw [hS] at hlo hhi
  have hl1 : -1 ≤ floorLog2 n d := by
    have : (2 : ℚ) ^ (-1 : Int) < (2 : ℚ) ^ (floorLog2 n d + 1) := by
      have : (2 : ℚ) ^ (-1 : Int) = 1 / 2 := by norm_num
      rw [this]; linarith
    have := two_zpow_lt_imp _ _ this
    omega
  have hl2 : floorLog2 n d ≤ 52 := by
    have : (2 : ℚ) ^ floorLog2 n d < (2 : ℚ) ^ (53 : Int) := by
      have : (2 : ℚ) ^ (52 : Int) + 1 / 2 < (2 : ℚ) ^ (53 : Int) := by norm_num
      linarith
    have := two_zpow_lt_imp _ _ this
    omega
  have hgap := half_gap m e (floorLog2 n d) T hm hT1 hT2 hlo hX hne
  have hfin : (n : ℚ) / (d : ℚ) < (2 : ℚ) ^ (1023 : Int) := by
    rw [hS]
    have : (2 : ℚ) ^ (52 : Int) + 1 / 2 < (2 : ℚ) ^ (1023 : Int) := by norm_num
    linarith
  obtain ⟨q, e1, hq⟩ := roundPos_isFinite s n d hn hd hfin
  rcases roundPos_val s n d hn with h0 | ⟨q0, e0, h0, hv⟩
  · rw [h0] at hq; cases hq
  rw [h0] at hq
  injection hq with _ hq1 hq2
  subst hq1; subst hq2
  refine ⟨q0, e0, h0, ?_⟩
  rw [hv]
  have hmax : max (floorLog2 n d - 52) (-1074) = floorLog2 n d - 52 := by omega
  have hsd := scaled_div n d (max (floorLog2 n d - 52) (-1074)) hd
  rw [hmax] at hsd ⊢
  rw [hS] at hsd
  have hE0 : floorLog2 n d - 52 ≤ 0 := by omega
  have hEt : (floorLog2 n d - 52).toNat = 0 := by omega
  have hgE : (2 : ℚ) ^ (floorLog2 n d - 53) = (2 : ℚ) ^ (floorLog2 n d - 52) / 2 := by
    have : floorLog2 n d - 53 = floorLog2 n d - 52 - 1 := by ring
    rw [this, zpow_sub_one₀ h2]; ring
  rw [hgE] at hgap
  -- P = 2^(-E) is a natural number and P * 2^E = 1
  have hP : ((2 ^ (-(floorLog2 n d - 52)).toNat : Nat) : ℚ) * (2 : ℚ) ^ (floorLog2 n d - 52) = 1 := by
    push_cast
    rw [← zpow_natCast, Int.toNat_of_nonneg (by omega), ← zpow_add₀ h2]
    simp
  generalize floorLog2 n d - 52 = E at hsd hP hgap hEt ⊢
  rw [hEt, pow_zero, mul_one] at hsd ⊢
  generalize 2 ^ (-E).toNat = P at hsd hP ⊢
  have hpE : (0 : ℚ) < (2 : ℚ) ^ E := by positivity
  generalize (2 : ℚ) ^ E = p at hsd hP hgap hpE ⊢
  generalize (m : ℚ) * (2 : ℚ) ^ e = X at hsd hgap hT1 hT2 hX0
  have hPq : (P : ℚ) = 1 / p := by
    field_simp; linarith
  constructor
  · -- T * P ≤ floor (N / d) ≤ Q
    have h1 : T * P ≤ n * P / d := by
      rw [Nat.le_div_iff_mul_le hd]
      have : ((T * P : Nat) : ℚ) ≤ ((n * P : Nat) : ℚ) / (d : ℚ) := by
        rw [hsd]; push_cast; rw [hPq]
        rw [mul_one_div]
        exact div_le_div_of_nonneg_right hT1 hpE.le
      rw [le_div_iff₀ hdq] at this
      exact_mod_cast this
    have h3 : T * P ≤ nearestEven (n * P) d := le_trans h1 (nearestEven_ge _ _)
    have h4 : ((T * P : Nat) : ℚ) ≤ ((nearestEven (n * P) d : Nat) : ℚ) := by exact_mod_cast h3
    push_cast at h4
    calc (T : ℚ) = (T : ℚ) * ((P : ℚ) * p) := by rw [hP]; ring
      _ = (T : ℚ) * (P : ℚ) * p := by ring
      _ ≤ ((nearestEven (n * P) d : Nat) : ℚ) * p := mul_le_mul_of_nonneg_right h4 hpE.le
  · have h1 : nearestEven (n * P) d < (T + 1) * P := by
      apply nearestEven_lt _ _ _ hd
      rw [hsd]; push_cast; rw [hPq]
      rw [div_lt_iff₀ hpE]
      have : (((T : ℚ) + 1) * (1 / p) - 1 / 2) * p = (T : ℚ) + 1 - p / 2 := by
        field_simp
        ring
      rw [this]; linarith
    have h4 : ((nearestEven (n * P) d : Nat) : ℚ) < (((T + 1) * P : Nat) : ℚ) := by
      exact_mod_cast h1
    push_cast at h4
    calc ((nearestEven (n * P) d : Nat) : ℚ) * p < ((T : ℚ) + 1) * (P : ℚ) * p :=
          mul_lt_mul_of_pos_right h4 hpE
      _ = ((T : ℚ) + 1) * ((P : ℚ) * p) := by ring
      _ = (T : ℚ) + 1 := by rw [hP]; ring

/-- Truncation of a finite value whose magnitude lies in `[T, T+1)`. -/
theorem trunc_of_bounds (s : Bool) (q : Nat) (e : Int) (T : Nat)
    (h1 : (T : ℚ) ≤ (q : ℚ) * (2 : ℚ) ^ e) (h2 : (q : ℚ) * (2 : ℚ) ^ e < (T : ℚ) + 1) :
    trunc? (fin s q e) = some (signed s T) := by
  suffices hT : q * 2 ^ e.toNat / 2 ^ (-e).toNat = T by
    simp only [trunc?, hT]
  have hD : 0 < 2 ^ (-e).toNat := by positivity
  have hDq : (0 : ℚ) < ((2 ^ (-e).toNat : Nat) : ℚ) := by exact_mod_cast hD
  have hv : ((q * 2 ^ e.toNat : Nat) : ℚ) / ((2 ^ (-e).toNat : Nat) : ℚ)
      = (q : ℚ) * (2 : ℚ) ^ e := by
    rw [two_zpow_split e]; push_cast; ring
  rw [← hv] at h1 h2
  apply le_antisymm
  · have : q * 2 ^ e.toNat / 2 ^ (-e).toNat < T + 1 := by
      rw [Nat.div_lt_iff_lt_mul hD]
      rw [div_lt_iff₀ hDq] at h2
      exact_mod_cast h2
    omega
  · rw [Nat.le_div_iff_mul_le hD]
    rw [le_div_iff₀ hDq] at h1
    exact_mod_cast h1

/-- The conversion `float64(a)` of an `int64` has relative error at most `2^-53`. -/
theorem ofInt_approx (a : Int) (ha : a.natAbs ≤ 2 ^ 63) :
    ∃ m e, ofInt a = fin (decide (a < 0)) m e ∧
      |(m : ℚ) * (2 : ℚ) ^ e - ((a.natAbs : Nat) : ℚ)| ≤ ((a.natAbs : Nat) : ℚ) / 2 ^ 53 := by
  unfold ofInt
  rcases Nat.eq_zero_or_pos a.natAbs with h0 | hpos
  · refine ⟨0, -1074, ?_, ?_⟩
    · rw [h0]; simp [roundPos]
    · rw [h0]; simp
  · have hq1 : (1 : ℚ) ≤ ((a.natAbs : Nat) : ℚ) := by exact_mod_cast hpos
    have hq2 : ((a.natAbs : Nat) : ℚ) ≤ ((2 ^ 63 : Nat) : ℚ) := by exact_mod_cast ha
    have hlt : ((a.natAbs : Nat) : ℚ) / ((1 : Nat) : ℚ) < (2 : ℚ) ^ (1023 : Int) := by
      have h2 : ((2 ^ 63 : Nat) : ℚ) < (2 : ℚ) ^ (1023 : Int) := by norm_num
      simp only [Nat.cast_one, div_one]
      linarith
    have hge : (2 : ℚ) ^ (-1022 : Int) ≤ ((a.natAbs : Nat) : ℚ) / ((1 : Nat) : ℚ) := by
      have h2 : (2 : ℚ) ^ (-1022 : Int) ≤ 1 := by
        rw [zpow_neg]; exact inv_le_one_of_one_le₀ (one_le_zpow₀ (by norm_num) (by norm_num))
      simp only [Nat.cast_one, div_one]
      linarith
    obtain ⟨m, e, hme⟩ := roundPos_isFinite (decide (a < 0)) a.natAbs 1 hpos (by norm_num) hlt
    have hrel := roundPos_relErr _ a.natAbs 1 hpos (by norm_num) hge _ m e hme
    simp only [Nat.cast_one, div_one] at hrel
    exact ⟨m, e, hme, hrel⟩

/-- For every `int64` amount and `-8 ≤ u ≤ 14`, `ToUnit` is finite and within
relative error `2^-52 + 2^-106` of `a / 10^(u+8)`. -/
theorem ToUnit_approx (a u : Int) (ha : a.natAbs ≤ 2 ^ 63) (hu1 : -8 ≤ u) (hu2 : u ≤ 14) :
    (Amount.ToUnit a u).isFinite = true ∧
    |toRat (Amount.ToUnit a u) - (a : ℚ) / (10 : ℚ) ^ (u + 8).toNat|
      ≤ |(a : ℚ) / (10 : ℚ) ^ (u + 8).toNat| * (1 / 2 ^ 52 + 1 / 2 ^ 106) := by
  obtain ⟨k, hk⟩ := Int.eq_ofNat_of_zero_le (show 0 ≤ u + 8 by omega)
  have hk23 : k < 23 := by omega
  obtain ⟨m2, e2, hp, hm2, hv2⟩ := Pow10_small k hk23
  obtain ⟨m1, e1, ho, hv1⟩ := ofInt_approx a ha
  have hT : Amount.ToUnit a u = roundPos (decide (a < 0)) (m1 * 2 ^ (e1 - e2).toNat)
      (m2 * 2 ^ (e2 - e1).toNat) := by
    unfold Amount.ToUnit
    rw [wrapInt64_small (u + 8) (by norm_num; omega) (by norm_num; omega), hk, hp, ho,
      div_fin _ _ _ _ _ _ hm2, Bool.xor_false]
  have hND := div_ratio m1 e1 m2 e2 hm2
  rw [hv2] at hND
  rw [hT, hk, Int.toNat_ofNat]
  have hD : 0 < m2 * 2 ^ (e2 - e1).toNat := by positivity
  generalize m1 * 2 ^ (e1 - e2).toNat = N at hND ⊢
  generalize m2 * 2 ^ (e2 - e1).toNat = D at hND hD ⊢
  have h10 : (0 : ℚ) < (10 : ℚ) ^ k := by positivity
  have hk10 : (10 : ℚ) ^ k ≤ (10 : ℚ) ^ 22 := pow_le_pow_right₀ (by norm_num) (by omega)
  have hk1 : (1 : ℚ) ≤ (10 : ℚ) ^ k := one_le_pow₀ (by norm_num)
  have hsgn := signed_cast a
  have hA0 : (0 : ℚ) ≤ ((a.natAbs : Nat) : ℚ) := by positivity
  have hAle : ((a.natAbs : Nat) : ℚ) ≤ 2 ^ 63 := by exact_mod_cast ha
  have habs : |(a : ℚ) / (10 : ℚ) ^ k| = ((a.natAbs : Nat) : ℚ) / (10 : ℚ) ^ k := by
    rw [abs_div, abs_of_pos h10, Nat.cast_natAbs, Int.cast_abs]
  rw [habs]
  have hY0 : (0 : ℚ) ≤ (m1 : ℚ) * (2 : ℚ) ^ e1 := by positivity
  rw [abs_le] at hv1
  rcases Nat.eq_zero_or_pos N with hN | hN
  · -- the converted amount is zero, hence so is the amount
    have hY : (m1 : ℚ) * (2 : ℚ) ^ e1 = 0 := by
      rw [hN] at hND
      simp only [Nat.cast_zero, zero_div] at hND
      have := hND.symm
      rw [div_eq_zero_iff] at this
      rcases this with h | h
      · exact h
      · exact absurd h h10.ne'
    have hA : ((a.natAbs : Nat) : ℚ) = 0 := by
      rw [hY] at hv1
      have h53 : ((a.natAbs : Nat) : ℚ) / 2 ^ 53 ≤ ((a.natAbs : Nat) : ℚ) / 2 := by
        apply div_le_div_of_nonneg_left hA0 (by norm_num) (by norm_num)
      linarith [hv1.1, hv1.2]
    have ha0 : (a : ℚ) = 0 := by rw [hsgn, hA]; ring
    rw [hN, roundPos_zero]
    refine ⟨rfl, ?_⟩
    rw [toRat_fin, ha0, hA]; simp
  · have hApos : (1 : ℚ) ≤ ((a.natAbs : Nat) : ℚ) := by
      have : 0 < a.natAbs := by
        by_contra h0
        have h0 : a.natAbs = 0 := by omega
        rw [h0] at hv1
        simp only [Nat.cast_zero, zero_div, sub_zero] at hv1
        have hY : (m1 : ℚ) * (2 : ℚ) ^ e1 = 0 := le_antisymm hv1.2 hY0
        rw [hY] at hND
        have hNq : (0 : ℚ) < (N : ℚ) := by exact_mod_cast hN
        have hDq : (0 : ℚ) < (D : ℚ) := by exact_mod_cast hD
        have : (0 : ℚ) < (N : ℚ) / (D : ℚ) := by positivity
        simp at hND
        rcases hND with h | h
        · linarith
        · linarith
      exact_mod_cast this
    generalize ((a.natAbs : Nat) : ℚ) = A at *
    generalize (m1 : ℚ) * (2 : ℚ) ^ e1 = Y at *
    have hYlo : A / 2 ≤ Y := by
      have h53 : A / 2 ^ 53 ≤ A / 2 :=
        div_le_div_of_nonneg_left hA0 (by norm_num) (by norm_num)
      linarith [hv1.1]
    have hYhi : Y ≤ 2 * A := by
      have h53 : A / 2 ^ 53 ≤ A := div_le_self hA0 (by norm_num)
      linarith [hv1.2]
    have hlt : (N : ℚ) / (D : ℚ) < (2 : ℚ) ^ (1023 : Int) := by
      rw [hND]
      have h1 : Y / (10 : ℚ) ^ k ≤ Y := div_le_self hY0 hk1
      have h2 : (2 : ℚ) * 2 ^ 63 < (2 : ℚ) ^ (1023 : Int) := by norm_num
      linarith
    have hge : (2 : ℚ) ^ (-1022 : Int) ≤ (N : ℚ) / (D : ℚ) := by
      rw [hND, le_div_iff₀ h10]
      have h1 : (2 : ℚ) ^ (-1022 : Int) * (10 : ℚ) ^ k ≤ (2 : ℚ) ^ (-1022 : Int) * (10 : ℚ) ^ 22 :=
        mul_le_mul_of_nonneg_left hk10 (by positivity)
      have h2 : (2 : ℚ) ^ (-1022 : Int) * (10 : ℚ) ^ 22 ≤ 1 / 2 := by
        rw [zpow_neg, inv_mul_le_iff₀ (by positivity)]
        norm_num
      have h3 : (1 : ℚ) / 2 ≤ Y := by linarith
      exact le_trans (le_trans h1 h2) h3
    obtain ⟨m, e, hme⟩ := roundPos_isFinite (decide (a < 0)) N D hN hD hlt
    have hrel := roundPos_relErr _ N D hN hD hge _ m e hme
    rw [hme]
    refine ⟨rfl, ?_⟩
    rw [hND] at hrel
    rw [toRat_fin]
    have e1' : (if decide (a < 0) = true then (-1 : ℚ) else 1) * ((m : ℚ) * (2 : ℚ) ^ e)
          - (a : ℚ) / (10 : ℚ) ^ k
        = (if decide (a < 0) = true then (-1 : ℚ) else 1)
          * ((m : ℚ) * (2 : ℚ) ^ e - A / (10 : ℚ) ^ k) := by
      rw [hsgn]; ring
    have e3 : |(if decide (a < 0) = true then (-1 : ℚ) else 1)| = 1 := by
      split_ifs <;> simp
    rw [e1', abs_mul, e3, one_mul]
    generalize (m : ℚ) * (2 : ℚ) ^ e = R at hrel ⊢
    generalize hP : (10 : ℚ) ^ k = P at *
    -- triangle inequality through the quotient of the converted amount
    have t1 : |R - A / P| ≤ |R - Y / P| + |Y / P - A / P| := abs_sub_le _ _ _
    have t2 : |Y / P - A / P| ≤ A / 2 ^ 53 / P := by
      have : Y / P - A / P = (Y - A) / P := by ring
      rw [this, abs_div, abs_of_pos h10]
      apply div_le_div_of_nonneg_right _ h10.le
      rw [abs_le]; exact hv1
    have t3 : Y / P ≤ (A + A / 2 ^ 53) / P :=
      div_le_div_of_nonneg_right (by linarith [hv1.2]) h10.le
    have t4 : Y / P / 2 ^ 53 ≤ (A + A / 2 ^ 53) / P / 2 ^ 53 :=
      div_le_div_of_nonneg_right t3 (by norm_num)
    have t5 : (A + A / 2 ^ 53) / P / 2 ^ 53 + A / 2 ^ 53 / P = A / P * (1 / 2 ^ 52 + 1 / 2 ^ 106) := by
      field_simp
      ring
    linarith

/-! ### `AmountUnit.String` -/

/-- C5 (the code at the base unit): `AmountCoinUnit.String()` is "CoinUnit", not
"Satoshi". -/
theorem AmountCoinUnit_String :
    AmountUnit.String AmountCoinUnit = "CoinUnit" ∧
      AmountUnit.String AmountCoinUnit ≠ "Satoshi" := by
  decide

/-! ### `NewAmount`: the error result -/

/-- C2: `NewAmount(f)` returns a non-nil error exactly when `f` is NaN, +Inf or
-Inf; with the error the amount is 0; for every finite `f` the error is nil.  This
holds on every build, `fused` or not. -/
theorem NewAmount_error_iff (oor : F64 → Int) (fused : Bool) (f : F64) :
    ((NewAmount oor fused f).2 ≠ none ↔ (f = nan ∨ f = inf false ∨ f = inf true)) ∧
    ((NewAmount oor fused f).2 ≠ none → (NewAmount oor fused f).1 = 0) ∧
    (f.isFinite = true → (NewAmount oor fused f).2 = none) := by
  cases f with
  | nan => simp [NewAmount, IsNaN, isFinite]
  | inf s => cases s <;> simp [NewAmount, IsNaN, IsInf, isFinite]
  | fin s m e => cases fused <;> simp [NewAmount, IsNaN, IsInf, isFinite]

/-! ### `ToUnit` and `ToBTC` -/

set_option maxRecDepth 10000 in
theorem eval_ToUnit_2p53 :
    Amount.ToUnit 9007199254740993 AmountCoinUnit = fin false (2 ^ 52) 1 := by decide

set_option maxRecDepth 10000 in
theorem eval_ToUnit_one :
    Amount.ToUnit 1 AmountCoin = fin false 6044629098073146 (-79) := by decide

set_option maxRecDepth 10000 in
theorem eval_ToUnit_far : Amount.ToUnit 1 301 = fin false 0 (-1074) := by decide

/-- C4 (as stated, refuted): the amount `2^53 + 1` is an `int64`, and
`ToUnit(AmountCoinUnit)` of it is `2^53`, not the amount itself;
`Amount(1).ToUnit(AmountCoin)` is the binary64 nearest to `1e-8`, not `1 / 10^8`;
and for the unit `u = 301`, where `math.Pow10(309)` is `+Inf`, `Amount(1).ToUnit(u)`
is 0, not `1 / 10^309`. -/
theorem ToUnit_not_exact :
    IsInt64 9007199254740993 ∧
    toRat (Amount.ToUnit 9007199254740993 AmountCoinUnit) = 9007199254740992 ∧
    toRat (Amount.ToUnit 9007199254740993 AmountCoinUnit) ≠ ((9007199254740993 : Int) : ℚ) ∧
    toRat (Amount.ToUnit 1 AmountCoin) ≠ ((1 : Int) : ℚ) / (10 : ℚ) ^ (AmountCoin + 8) ∧
    toRat (Amount.ToUnit 1 301) = 0 ∧
    toRat (Amount.ToUnit 1 301) ≠ ((1 : Int) : ℚ) / (10 : ℚ) ^ ((301 : Int) + 8) := by
  refine ⟨by decide, ?_, ?_, ?_, ?_, ?_⟩
  · rw [eval_ToUnit_2p53, toRat_fin]; norm_num
  · rw [eval_ToUnit_2p53, toRat_fin]; norm_num
  · rw [eval_ToUnit_one, toRat_fin]
    simp only [AmountCoin]
    norm_num
  · rw [eval_ToUnit_far, toRat_fin]; norm_num
  · rw [eval_ToUnit_far, toRat_fin]
    have : (0 : ℚ) < ((1 : Int) : ℚ) / (10 : ℚ) ^ ((301 : Int) + 8) := by positivity
    simp only [Nat.cast_zero, zero_mul, mul_zero]
    exact ne_of_lt this

/-- C4 (amended): for every `int64` amount `a` and `-8 ≤ u ≤ 14` (the six named
units are in this range) `a.ToUnit(u)` is finite and is `a / 10^(u+8)` up to
binary64 rounding, with relative error at most `2^-52 + 2^-106`; so `a.ToUnit(u) *
10^u` and `a.ToBTC()` agree with `a / 10^8` within that relative error.  For
`|a| ≤ 2^53` the relative error is at most `2^-53`, the value is exact when
`10^(u+8)` divides `a`, and in particular `a.ToUnit(AmountCoinUnit)` is `a`.  And
`a.ToBTC()` is `a.ToUnit(AmountCoin)`. -/
theorem ToUnit_spec (a u : Int) (ha : IsInt64 a) (hu1 : -8 ≤ u) (hu2 : u ≤ 14) :
    (Amount.ToUnit a u).isFinite = true ∧
    |toRat (Amount.ToUnit a u) - (a : ℚ) / (10 : ℚ) ^ (u + 8)|
      ≤ |(a : ℚ) / (10 : ℚ) ^ (u + 8)| * (1 / 2 ^ 52 + 1 / 2 ^ 106) ∧
    |toRat (Amount.ToUnit a u) * (10 : ℚ) ^ u - (a : ℚ) / 10 ^ 8|
      ≤ |(a : ℚ) / 10 ^ 8| * (1 / 2 ^ 52 + 1 / 2 ^ 106) ∧
    |toRat (Amount.ToBTC a) - (a : ℚ) / 10 ^ 8|
      ≤ |(a : ℚ) / 10 ^ 8| * (1 / 2 ^ 52 + 1 / 2 ^ 106) ∧
    (|a| ≤ 2 ^ 53 →
      |toRat (Amount.ToUnit a u) - (a : ℚ) / (10 : ℚ) ^ (u + 8)|
        ≤ |(a : ℚ) / (10 : ℚ) ^ (u + 8)| / 2 ^ 53 ∧
      (∀ c : Int, a = c * 10 ^ (u + 8).toNat →
        toRat (Amount.ToUnit a u) = (a : ℚ) / (10 : ℚ) ^ (u + 8)) ∧
      toRat (Amount.ToUnit a AmountCoinUnit) = (a : ℚ)) ∧
    Amount.ToBTC a = Amount.ToUnit a AmountCoin := by
  obtain ⟨ha1, ha2⟩ := ha
  have hna : a.natAbs ≤ 2 ^ 63 := by
    norm_num at ha1 ha2 ⊢
    omega
  have hz : (10 : ℚ) ^ (u + 8) = (10 : ℚ) ^ (u + 8).toNat := by
    rw [← zpow_natCast, Int.toNat_of_nonneg (by omega)]
  obtain ⟨h1, h2⟩ := ToUnit_approx a u hna hu1 hu2
  obtain ⟨_, hb⟩ := ToUnit_approx a AmountCoin hna (by decide) (by decide)
  rw [hz]
  refine ⟨h1, h2, ?_, ?_, ?_, rfl⟩
  · -- multiply the bound by 10^u
    have h10 : (0 : ℚ) < (10 : ℚ) ^ u := by positivity
    have hsplit : (10 : ℚ) ^ (u + 8).toNat = (10 : ℚ) ^ u * 10 ^ 8 := by
      rw [← hz, zpow_add₀ (by norm_num : (10 : ℚ) ≠ 0)]
      norm_num
    rw [hsplit] at h2
    have e1 : toRat (Amount.ToUnit a u) * (10 : ℚ) ^ u - (a : ℚ) / 10 ^ 8
        = (toRat (Amount.ToUnit a u) - (a : ℚ) / ((10 : ℚ) ^ u * 10 ^ 8)) * (10 : ℚ) ^ u := by
      field_simp
      ring
    have e2 : |(a : ℚ) / 10 ^ 8|
        = |(a : ℚ) / ((10 : ℚ) ^ u * 10 ^ 8)| * (10 : ℚ) ^ u := by
      rw [abs_div, abs_div, abs_mul, abs_of_pos h10]
      field_simp
      ring
    rw [e1, abs_mul, abs_of_pos h10, e2]
    calc |toRat (Amount.ToUnit a u) - (a : ℚ) / ((10 : ℚ) ^ u * 10 ^ 8)| * (10 : ℚ) ^ u
        ≤ |(a : ℚ) / ((10 : ℚ) ^ u * 10 ^ 8)| * (1 / 2 ^ 52 + 1 / 2 ^ 106) * (10 : ℚ) ^ u :=
          mul_le_mul_of_nonneg_right h2 h10.le
      _ = |(a : ℚ) / ((10 : ℚ) ^ u * 10 ^ 8)| * (10 : ℚ) ^ u * (1 / 2 ^ 52 + 1 / 2 ^ 106) := by
          ring
  · have : (AmountCoin + 8).toNat = 8 := by decide
    rw [this] at hb
    exact hb
  · intro hsmall
    have hn53 : a.natAbs ≤ 2 ^ 53 := by
      have := abs_le.mp hsmall
      norm_num at this ⊢
      omega
    obtain ⟨_, h3, h4⟩ := ToUnit_core a u hn53 hu1 hu2
    obtain ⟨_, _, h5⟩ := ToUnit_core a AmountCoinUnit hn53 (by decide) (by decide)
    refine ⟨h3, h4, ?_⟩
    have := h5 a (by simp [AmountCoinUnit])
    rw [this]
    simp [AmountCoinUnit]

/-- Witness of C4: 1.5 coins, `a = 150000000`, in coins (`u = AmountCoin`). -/
theorem ToUnit_spec_witness :
    (IsInt64 150000000 ∧ (-8 : Int) ≤ AmountCoin ∧ AmountCoin ≤ (14 : Int)) ∧
    ((Amount.ToUnit 150000000 AmountCoin).isFinite = true ∧
    |toRat (Amount.ToUnit 150000000 AmountCoin)
        - ((150000000 : Int) : ℚ) / (10 : ℚ) ^ (AmountCoin + 8)|
      ≤ |((150000000 : Int) : ℚ) / (10 : ℚ) ^ (AmountCoin + 8)| * (1 / 2 ^ 52 + 1 / 2 ^ 106) ∧
    |toRat (Amount.ToUnit 150000000 AmountCoin) * (10 : ℚ) ^ AmountCoin
        - ((150000000 : Int) : ℚ) / 10 ^ 8|
      ≤ |((150000000 : Int) : ℚ) / 10 ^ 8| * (1 / 2 ^ 52 + 1 / 2 ^ 106) ∧
    |toRat (Amount.ToBTC 150000000) - ((150000000 : Int) : ℚ) / 10 ^ 8|
      ≤ |((150000000 : Int) : ℚ) / 10 ^ 8| * (1 / 2 ^ 52 + 1 / 2 ^ 106) ∧
    (|(150000000 : Int)| ≤ 2 ^ 53 →
      |toRat (Amount.ToUnit 150000000 AmountCoin)
          - ((150000000 : Int) : ℚ) / (10 : ℚ) ^ (AmountCoin + 8)|
        ≤ |((150000000 : Int) : ℚ) / (10 : ℚ) ^ (AmountCoin + 8)| / 2 ^ 53 ∧
      (∀ c : Int, (150000000 : Int) = c * 10 ^ (AmountCoin + 8).toNat →
        toRat (Amount.ToUnit 150000000 AmountCoin)
          = ((150000000 : Int) : ℚ) / (10 : ℚ) ^ (AmountCoin + 8)) ∧
      toRat (Amount.ToUnit 150000000 AmountCoinUnit) = ((150000000 : Int) : ℚ)) ∧
    Amount.ToBTC 150000000 = Amount.ToUnit 150000000 AmountCoin) :=
  ⟨⟨by decide, by decide, by decide⟩,
   ToUnit_spec 150000000 AmountCoin (by decide) (by decide) (by decide)⟩

end Common

namespace Common

open F64

/-! ### `round` and `NewAmount`: the amount returned -/

theorem signed_pos_iff (s : Bool) (m : Nat) : signed s m < 0 ↔ (s = true ∧ 0 < m) := by
  unfold signed
  cases s <;> simp

/-- The test `f < 0` on a finite value. -/
theorem lt_zero (s : Bool) (m : Nat) (e : Int) :
    F64.lt (fin s m e) zero = decide (s = true ∧ 0 < m) := by
  unfold F64.lt zero
  simp only
  have h0 : signed false 0 * 2 ^ (-1074 - min e (-1074)).toNat = 0 := by simp [signed]
  rw [h0]
  have hp : (0 : Int) < 2 ^ (e - min e (-1074)).toNat := by positivity
  have : (signed s m * 2 ^ (e - min e (-1074)).toNat < 0) ↔ (s = true ∧ 0 < m) := by
    rw [← signed_pos_iff]
    constructor
    · intro h
      by_contra hc
      have : 0 ≤ signed s m * 2 ^ (e - min e (-1074)).toNat :=
        mul_nonneg (not_lt.mp hc) hp.le
      omega
    · intro h
      exact mul_neg_of_neg_of_pos h hp
  simp only [this]

theorem signed_natAbs (s : Bool) (m : Nat) : (signed s m).natAbs = m := by
  unfold signed
  cases s <;> simp

theorem signed_add_mul (sg : Bool) (m1 a m2 b : Nat) :
    signed sg m1 * (a : Int) + signed sg m2 * (b : Int) = signed sg (m1 * a + m2 * b) := by
  unfold signed
  cases sg
  · simp
  · simp only [if_true]; push_cast; ring

/-- Adding two finite values of the same sign (the second one non-zero) is one
rounding of the sum of the magnitudes. -/
theorem add_same_sign (s1 s2 sg : Bool) (m1 : Nat) (e1 : Int) (m2 : Nat) (e2 : Int)
    (h1 : signed s1 m1 = signed sg m1) (h2 : signed s2 m2 = signed sg m2) (hpos : 0 < m2) :
    F64.add (fin s1 m1 e1) (fin s2 m2 e2)
      = roundDyadic sg (m1 * 2 ^ (e1 - min e1 e2).toNat + m2 * 2 ^ (e2 - min e1 e2).toNat)
          (min e1 e2) := by
  unfold F64.add
  simp only
  rw [h1, h2]
  have key := signed_add_mul sg m1 (2 ^ (e1 - min e1 e2).toNat) m2 (2 ^ (e2 - min e1 e2).toNat)
  push_cast at key
  rw [key]
  have hN : 0 < m1 * 2 ^ (e1 - min e1 e2).toNat + m2 * 2 ^ (e2 - min e1 e2).toNat := by
    have : 0 < m2 * 2 ^ (e2 - min e1 e2).toNat := by positivity
    omega
  generalize m1 * 2 ^ (e1 - min e1 e2).toNat + m2 * 2 ^ (e2 - min e1 e2).toNat = N at hN ⊢
  have hne : signed sg N ≠ 0 := by
    intro h
    have := signed_natAbs sg N
    rw [h] at this
    simp at this
    omega
  rw [if_neg hne, signed_natAbs]
  congr 1
  cases sg
  · simp [signed]
  · simp [signed]; omega

theorem roundDyadic_ratio (n : Nat) (e : Int) :
    ((n * 2 ^ e.toNat : Nat) : ℚ) / ((2 ^ (-e).toNat : Nat) : ℚ) = (n : ℚ) * (2 : ℚ) ^ e := by
  rw [two_zpow_split e]; push_cast; ring

theorem aligned_sum (m1 : Nat) (e1 : Int) (m2 : Nat) (e2 : Int) :
    ((m1 * 2 ^ (e1 - min e1 e2).toNat + m2 * 2 ^ (e2 - min e1 e2).toNat : Nat) : ℚ)
        * (2 : ℚ) ^ (min e1 e2)
      = (m1 : ℚ) * (2 : ℚ) ^ e1 + (m2 : ℚ) * (2 : ℚ) ^ e2 := by
  have h2 : (2 : ℚ) ≠ 0 := by norm_num
  have a1 : (2 : ℚ) ^ (e1 - min e1 e2).toNat * (2 : ℚ) ^ (min e1 e2) = (2 : ℚ) ^ e1 := by
    rw [← zpow_natCast, Int.toNat_of_nonneg (by omega), ← zpow_add₀ h2]; congr 1; ring
  have a2 : (2 : ℚ) ^ (e2 - min e1 e2).toNat * (2 : ℚ) ^ (min e1 e2) = (2 : ℚ) ^ e2 := by
    rw [← zpow_natCast, Int.toNat_of_nonneg (by omega), ← zpow_add₀ h2]; congr 1; ring
  push_cast
  rw [add_mul, mul_assoc, mul_assoc, a1, a2]

theorem toInt64_of_trunc (oor : F64 → Int) (f : F64) (v : Int)
    (h : trunc? f = some v) (h1 : -2 ^ 63 ≤ v) (h2 : v < 2 ^ 63) : toInt64 oor f = v := by
  unfold toInt64
  rw [h]
  simp only
  rw [if_pos ⟨h1, h2⟩]

theorem nearest_of_half (r : Int) (x : ℚ) (h : |(r : ℚ) - x| ≤ 1 / 2) (z : Int) :
    |(r : ℚ) - x| ≤ |(z : ℚ) - x| := by
  rcases eq_or_ne z r with hz | hz
  · rw [hz]
  · have h1 : (1 : ℚ) ≤ |(z : ℚ) - (r : ℚ)| := by
      have : (1 : Int) ≤ |z - r| := Int.one_le_abs (sub_ne_zero.mpr hz)
      have h2 : ((1 : Int) : ℚ) ≤ ((|z - r| : Int) : ℚ) := by exact_mod_cast this
      rw [Int.cast_abs] at h2
      push_cast at h2
      exact h2
    have h3 : |(z : ℚ) - (r : ℚ)| ≤ |(z : ℚ) - x| + |(r : ℚ) - x| := by
      have : (z : ℚ) - (r : ℚ) = ((z : ℚ) - x) - ((r : ℚ) - x) := by ring
      rw [this]
      exact abs_sub _ _
    linarith

theorem mul_fin_valid (s1 : Bool) (m1 : Nat) (e1 : Int) (s2 : Bool) (m2 : Nat) (e2 : Int) :
    Valid (F64.mul (fin s1 m1 e1) (fin s2 m2 e2)) := by
  unfold F64.mul roundDyadic
  exact roundPos_valid _ _ _ (by positivity)

theorem wrapInt64_range (i : Int) : -2 ^ 63 ≤ wrapInt64 i ∧ wrapInt64 i < 2 ^ 63 := by
  unfold wrapInt64
  norm_num
  omega

theorem toInt64_range (oor : F64 → Int) (f : F64) :
    -2 ^ 63 ≤ toInt64 oor f ∧ toInt64 oor f < 2 ^ 63 := by
  unfold toInt64
  split
  · split_ifs with h
    · exact h
    · exact wrapInt64_range _
  · exact wrapInt64_range _

theorem nearestEven_eq_of_lt (N D m : Nat) (hD : 0 < D)
    (h1 : (m : ℚ) ≤ (N : ℚ) / (D : ℚ)) (h2 : (N : ℚ) / (D : ℚ) < (m : ℚ) + 1 / 2) :
    nearestEven N D = m := by
  have hDq : (0 : ℚ) < (D : ℚ) := by exact_mod_cast hD
  have hlo : m ≤ N / D := by
    rw [Nat.le_div_iff_mul_le hD]
    rw [le_div_iff₀ hDq] at h1
    exact_mod_cast h1
  have hge := nearestEven_ge N D
  have hlt : nearestEven N D < m + 1 := by
    apply nearestEven_lt _ _ _ hD
    push_cast
    linarith
  omega

theorem nearestEven_tie (N D m : Nat) (hD : 0 < D)
    (h : (N : ℚ) / (D : ℚ) = (m : ℚ) + 1 / 2) (hev : m % 2 = 0) :
    nearestEven N D = m := by
  have hDq : (0 : ℚ) < (D : ℚ) := by exact_mod_cast hD
  rw [div_eq_iff hDq.ne'] at h
  have h2 : 2 * N = (2 * m + 1) * D := by
    have : (2 : ℚ) * (N : ℚ) = (2 * (m : ℚ) + 1) * (D : ℚ) := by rw [h]; ring
    exact_mod_cast this
  have hr : 2 * (N - D * m) = D := by
    have : D * m ≤ N := by nlinarith
    have h3 : 2 * N = 2 * (D * m) + D := by rw [h2]; ring
    omega
  have hdm : N / D = m ∧ N % D = N - D * m := by
    rw [Nat.div_mod_unique hD]
    constructor
    · have : D * m ≤ N := by nlinarith
      omega
    · omega
  unfold nearestEven
  rw [hdm.1, hdm.2, hr]
  rw [if_neg (by omega)]

theorem two_zpow_le_imp (a b : Int) (h : (2 : ℚ) ^ a ≤ (2 : ℚ) ^ b) : a ≤ b := by
  by_contra hc
  have : (2 : ℚ) ^ b < (2 : ℚ) ^ a := zpow_lt_zpow_right₀ (by norm_num) (by omega)
  linarith

/-- Rounding `X + 1/2` for an integer binary64 `X = m * 2^e ≥ 2^52` that is even
gives `X` back. -/
theorem roundPos_add_half_big (s : Bool) (n d : Nat) (hd : 0 < d) (m : Nat) (e : Int)
    (hm1 : 2 ^ 52 ≤ m) (hm2 : m < 2 ^ 53) (he : 0 ≤ e) (he2 : e ≤ 900)
    (hpar : 1 ≤ e ∨ m % 2 = 0)
    (hS : (n : ℚ) / (d : ℚ) = (m : ℚ) * (2 : ℚ) ^ e + 1 / 2) :
    ∃ q e1, roundPos s n d = fin s q e1 ∧ (q : ℚ) * (2 : ℚ) ^ e1 = (m : ℚ) * (2 : ℚ) ^ e := by
  have h2 : (2 : ℚ) ≠ 0 := by norm_num
  have h12 : (1 : ℚ) ≤ 2 := by norm_num
  have hpe : (0 : ℚ) < (2 : ℚ) ^ e := by positivity
  have hpe1 : (1 : ℚ) ≤ (2 : ℚ) ^ e := by
    have := zpow_le_zpow_right₀ h12 he
    simpa using this
  have hmq1 : (2 : ℚ) ^ (52 : Int) ≤ (m : ℚ) := by
    have h52 : (2 : ℚ) ^ (52 : Int) = ((2 ^ 52 : Nat) : ℚ) := by norm_num
    rw [h52]; exact_mod_cast hm1
  have hmq2 : (m : ℚ) + 1 ≤ (2 : ℚ) ^ (53 : Int) := by
    have h53 : (2 : ℚ) ^ (53 : Int) = ((2 ^ 53 : Nat) : ℚ) := by norm_num
    rw [h53]; exact_mod_cast hm2
  have hdq : (0 : ℚ) < (d : ℚ) := by exact_mod_cast hd
  have hSpos : (0 : ℚ) < (m : ℚ) * (2 : ℚ) ^ e + 1 / 2 := by positivity
  have hn : 0 < n := by
    rcases Nat.eq_zero_or_pos n with h0 | h0
    · rw [h0] at hS; simp only [Nat.cast_zero, zero_div] at hS; linarith
    · exact h0
  obtain ⟨hlo, hhi⟩ := floorLog2_spec n d hn hd
  rw [hS] at hlo hhi
  -- 2^(52+e) ≤ S < 2^(53+e)
  have hS1 : (2 : ℚ) ^ (52 + e) ≤ (m : ℚ) * (2 : ℚ) ^ e + 1 / 2 := by
    rw [zpow_add₀ h2]
    have := mul_le_mul_of_nonneg_right hmq1 hpe.le
    linarith
  have hS2 : (m : ℚ) * (2 : ℚ) ^ e + 1 / 2 < (2 : ℚ) ^ (53 + e) := by
    rw [zpow_add₀ h2]
    have := mul_le_mul_of_nonneg_right hmq2 hpe.le
    have : ((m : ℚ) + 1) * (2 : ℚ) ^ e = (m : ℚ) * (2 : ℚ) ^ e + (2 : ℚ) ^ e := by ring
    linarith
  have hl : floorLog2 n d = 52 + e := by
    have a1 := two_zpow_lt_imp _ _ (lt_of_le_of_lt hlo hS2)
    have a2 := two_zpow_lt_imp _ _ (lt_of_le_of_lt hS1 hhi)
    omega
  have hfin : (n : ℚ) / (d : ℚ) < (2 : ℚ) ^ (1023 : Int) := by
    rw [hS]
    exact lt_of_lt_of_le hS2 (zpow_le_zpow_right₀ h12 (by omega))
  obtain ⟨q, e1, hq⟩ := roundPos_isFinite s n d hn hd hfin
  rcases roundPos_val s n d hn with h0 | ⟨q0, e0, h0, hv⟩
  · rw [h0] at hq; cases hq
  refine ⟨q0, e0, h0, ?_⟩
  rw [hv]
  have hmax : max (floorLog2 n d - 52) (-1074) = e := by omega
  have hsd := scaled_div n d (max (floorLog2 n d - 52) (-1074)) hd
  rw [hmax] at hsd ⊢
  rw [hS] at hsd
  have hfrac : ((m : ℚ) * (2 : ℚ) ^ e + 1 / 2) / (2 : ℚ) ^ e = (m : ℚ) + 1 / 2 / (2 : ℚ) ^ e := by
    field_simp
    ring
  rw [hfrac] at hsd
  have hD : 0 < d * 2 ^ e.toNat := by positivity
  have hQ : nearestEven (n * 2 ^ (-e).toNat) (d * 2 ^ e.toNat) = m := by
    rcases eq_or_lt_of_le he with he0 | hepos
    · -- e = 0: a tie, resolved to the even significand
      have hm0 : m % 2 = 0 := by
        rcases hpar with h | h
        · omega
        · exact h
      apply nearestEven_tie _ _ _ hD _ hm0
      rw [hsd, ← he0]
      simp
    · apply nearestEven_eq_of_lt _ _ _ hD
      · rw [hsd]
        have : (0 : ℚ) ≤ 1 / 2 / (2 : ℚ) ^ e := by positivity
        linarith
      · rw [hsd]
        have h2e : (2 : ℚ) ≤ (2 : ℚ) ^ e := by
          have := zpow_le_zpow_right₀ h12 (show (1 : Int) ≤ e by omega)
          simpa using this
        have : 1 / 2 / (2 : ℚ) ^ e < 1 / 2 := by
          rw [div_lt_iff₀ hpe]
          linarith
        linarith
  rw [hQ]

theorem half_value : ((2 ^ 52 : Nat) : ℚ) * (2 : ℚ) ^ (-53 : Int) = 1 / 2 := by norm_num


theorem roundPos_sign (s : Bool) (n d : Nat) (s1 : Bool) (m : Nat) (e : Int)
    (h : roundPos s n d = fin s1 m e) : s1 = s := by
  unfold roundPos at h
  simp only at h
  split_ifs at h <;> (injection h with h1 _ _; exact h1.symm)

/-- Adding `±1/2` to a finite value of the same sign and converting to `int64`, once
the rounded sum of the magnitudes is known to lie in `[T, T+1)`. -/
theorem addHalf_trunc (oor : F64 → Int) (sg s1 : Bool) (M : Nat) (E : Int) (T : Nat)
    (hsm : signed s1 M = signed sg M)
    (hcore : ∃ q e1,
      roundDyadic sg (M * 2 ^ (E - min E (-53)).toNat + 2 ^ 52 * 2 ^ (-53 - min E (-53)).toNat)
        (min E (-53)) = fin sg q e1 ∧
      (T : ℚ) ≤ (q : ℚ) * (2 : ℚ) ^ e1 ∧ (q : ℚ) * (2 : ℚ) ^ e1 < (T : ℚ) + 1)
    (hr1 : -2 ^ 63 ≤ signed sg T) (hr2 : signed sg T < 2 ^ 63) :
    toInt64 oor (F64.add (fin s1 M E) (fin sg (2 ^ 52) (-53))) = signed sg T := by
  rw [add_same_sign s1 sg sg M E (2 ^ 52) (-53) hsm rfl (by positivity)]
  obtain ⟨q, e1, hq, hb1, hb2⟩ := hcore
  rw [hq]
  exact toInt64_of_trunc oor _ _ (trunc_of_bounds sg q e1 T hb1 hb2) hr1 hr2

/-- A rounding fact for every quotient equal to `M * 2^E + 1/2`, in the form in which
`add` presents the sum. -/
theorem core_dyadic (M : Nat) (E : Int) (T : Nat)
    (hcore : ∀ (sg : Bool) (n d : Nat), 0 < d →
      (n : ℚ) / (d : ℚ) = (M : ℚ) * (2 : ℚ) ^ E + 1 / 2 →
      ∃ q e1, roundPos sg n d = fin sg q e1 ∧
        (T : ℚ) ≤ (q : ℚ) * (2 : ℚ) ^ e1 ∧ (q : ℚ) * (2 : ℚ) ^ e1 < (T : ℚ) + 1)
    (sg : Bool) :
    ∃ q e1,
      roundDyadic sg (M * 2 ^ (E - min E (-53)).toNat + 2 ^ 52 * 2 ^ (-53 - min E (-53)).toNat)
        (min E (-53)) = fin sg q e1 ∧
      (T : ℚ) ≤ (q : ℚ) * (2 : ℚ) ^ e1 ∧ (q : ℚ) * (2 : ℚ) ^ e1 < (T : ℚ) + 1 := by
  unfold roundDyadic
  apply hcore sg _ _ (by positivity)
  rw [roundDyadic_ratio, aligned_sum, half_value]

/-- For a binary64 magnitude `X = m * 2^e` within the `int64` range, neither
`1/2 - 2^-54` nor an odd integer above `2^52`: every rounding of `X + 1/2` has the
integer part `T` of `X + 1/2`. -/
theorem half_sum_core (s : Bool) (m : Nat) (e : Int) (hv : Valid (fin s m e)) (ng : Bool)
    (hr : if ng = true then (m : ℚ) * (2 : ℚ) ^ e ≤ 2 ^ 63
          else (m : ℚ) * (2 : ℚ) ^ e < 2 ^ 63)
    (hne : (m : ℚ) * (2 : ℚ) ^ e ≠ 1 / 2 - 1 / 2 ^ 54)
    (hodd : ∀ k : Nat, 2 ^ 52 < 2 * k + 1 → (m : ℚ) * (2 : ℚ) ^ e ≠ ((2 * k + 1 : Nat) : ℚ)) :
    ∃ T : Nat, (T : ℚ) ≤ (m : ℚ) * (2 : ℚ) ^ e + 1 / 2 ∧
      (m : ℚ) * (2 : ℚ) ^ e + 1 / 2 < (T : ℚ) + 1 ∧
      -2 ^ 63 ≤ signed ng T ∧ signed ng T < 2 ^ 63 ∧
      ∀ (sg : Bool) (n d : Nat), 0 < d →
        (n : ℚ) / (d : ℚ) = (m : ℚ) * (2 : ℚ) ^ e + 1 / 2 →
        ∃ q e1, roundPos sg n d = fin sg q e1 ∧
          (T : ℚ) ≤ (q : ℚ) * (2 : ℚ) ^ e1 ∧ (q : ℚ) * (2 : ℚ) ^ e1 < (T : ℚ) + 1 := by
  obtain ⟨hm, he1, he2, hnorm⟩ := hv
  have h2 : (2 : ℚ) ≠ 0 := by norm_num
  have h12 : (1 : ℚ) ≤ 2 := by norm_num
  have hX0 : (0 : ℚ) ≤ (m : ℚ) * (2 : ℚ) ^ e := by positivity
  have hmq : (m : ℚ) < (2 : ℚ) ^ (53 : Int) := by
    have h53 : (2 : ℚ) ^ (53 : Int) = ((2 ^ 53 : Nat) : ℚ) := by norm_num
    rw [h53]; exact_mod_cast hm
  by_cases hX : (m : ℚ) * (2 : ℚ) ^ e < (2 : ℚ) ^ (52 : Int)
  · have hT1 : ((⌊(m : ℚ) * (2 : ℚ) ^ e + 1 / 2⌋₊ : Nat) : ℚ) ≤ (m : ℚ) * (2 : ℚ) ^ e + 1 / 2 :=
      Nat.floor_le (by linarith)
    have hT2 : (m : ℚ) * (2 : ℚ) ^ e + 1 / 2 < ((⌊(m : ℚ) * (2 : ℚ) ^ e + 1 / 2⌋₊ : Nat) : ℚ) + 1 :=
      Nat.lt_floor_add_one _
    generalize ⌊(m : ℚ) * (2 : ℚ) ^ e + 1 / 2⌋₊ = T at hT1 hT2
    have hTle : T ≤ 2 ^ 52 := by
      have h52 : (2 : ℚ) ^ (52 : Int) = ((2 ^ 52 : Nat) : ℚ) := by norm_num
      rw [h52] at hX
      have : (T : ℚ) < ((2 ^ 52 : Nat) : ℚ) + 1 := by linarith
      have : T < 2 ^ 52 + 1 := by exact_mod_cast this
      omega
    have hrange : -2 ^ 63 ≤ signed ng T ∧ signed ng T < 2 ^ 63 := by
      unfold signed
      norm_num at hTle ⊢
      cases ng <;> simp <;> omega
    refine ⟨T, hT1, hT2, hrange.1, hrange.2, ?_⟩
    intro sg n d hd hS
    exact roundPos_add_half sg n d hd m e hm hS hX hne T hT1 hT2
  · have hXge : (2 : ℚ) ^ (52 : Int) ≤ (m : ℚ) * (2 : ℚ) ^ e := not_lt.mp hX
    have hpe : (0 : ℚ) < (2 : ℚ) ^ e := by positivity
    have he0 : 0 ≤ e := by
      by_contra hc
      have h1 : (2 : ℚ) ^ e ≤ (2 : ℚ) ^ (-1 : Int) := zpow_le_zpow_right₀ h12 (by omega)
      have h3 : (m : ℚ) * (2 : ℚ) ^ e < (2 : ℚ) ^ (53 : Int) * (2 : ℚ) ^ (-1 : Int) :=
        lt_of_lt_of_le (mul_lt_mul_of_pos_right hmq hpe)
          (mul_le_mul_of_nonneg_left h1 (by positivity))
      have h4 : (2 : ℚ) ^ (53 : Int) * (2 : ℚ) ^ (-1 : Int) = (2 : ℚ) ^ (52 : Int) := by
        rw [← zpow_add₀ h2]; norm_num
      rw [h4] at h3
      exact hX h3
    have hm1 : 2 ^ 52 ≤ m := by
      rcases hnorm with h | h
      · exact h
      · omega
    have hTq : ((m * 2 ^ e.toNat : Nat) : ℚ) = (m : ℚ) * (2 : ℚ) ^ e := by
      push_cast
      rw [← zpow_natCast, Int.toNat_of_nonneg he0]
    have hXle : (m : ℚ) * (2 : ℚ) ^ e ≤ 2 ^ 63 := by
      split_ifs at hr
      · exact hr
      · exact hr.le
    have he11 : e ≤ 11 := by
      have h1 : (2 : ℚ) ^ (52 + e) ≤ (2 : ℚ) ^ (63 : Int) := by
        rw [zpow_add₀ h2]
        have h52 : (2 : ℚ) ^ (52 : Int) ≤ (m : ℚ) := by
          have h52' : (2 : ℚ) ^ (52 : Int) = ((2 ^ 52 : Nat) : ℚ) := by norm_num
          rw [h52']; exact_mod_cast hm1
        have h63 : (2 : ℚ) ^ (63 : Int) = 2 ^ 63 := by norm_num
        rw [h63]
        exact le_trans (mul_le_mul_of_nonneg_right h52 hpe.le) hXle
      have := two_zpow_le_imp _ _ h1
      omega
    have hpar : 1 ≤ e ∨ m % 2 = 0 := by
      rcases eq_or_lt_of_le he0 with h0 | h0
      · right
        by_contra hc
        have hk : m = 2 * (m / 2) + 1 := by omega
        apply hodd (m / 2) (by omega)
        rw [← hk, ← h0]
        simp
      · left; omega
    have hT63 : ((m * 2 ^ e.toNat : Nat) : ℚ) ≤ ((2 ^ 63 : Nat) : ℚ) := by
      rw [hTq]; push_cast; exact hXle
    have hT63' : m * 2 ^ e.toNat ≤ 2 ^ 63 := by exact_mod_cast hT63
    have hTlt : ng = false → m * 2 ^ e.toNat < 2 ^ 63 := by
      intro hc
      rw [hc] at hr
      simp only [Bool.false_eq_true, if_false] at hr
      rw [← hTq] at hr
      have h63 : ((2 ^ 63 : Nat) : ℚ) = 2 ^ 63 := by norm_num
      rw [← h63] at hr
      exact_mod_cast hr
    have hrange : -2 ^ 63 ≤ signed ng (m * 2 ^ e.toNat) ∧
        signed ng (m * 2 ^ e.toNat) < 2 ^ 63 := by
      generalize m * 2 ^ e.toNat = T at hT63' hTlt
      unfold signed
      cases ng
      · have := hTlt rfl
        simp only [Bool.false_eq_true, if_false]
        norm_num at this ⊢
        omega
      · simp only [if_true]
        norm_num at hT63' ⊢
        omega
    refine ⟨m * 2 ^ e.toNat, by rw [hTq]; linarith, by rw [hTq]; linarith,
      hrange.1, hrange.2, ?_⟩
    intro sg n d hd hS
    obtain ⟨q, e1, hq, hval⟩ :=
      roundPos_add_half_big sg n d hd m e hm1 hm he0 (by omega) hpar hS
    refine ⟨q, e1, hq, ?_, ?_⟩
    · rw [hval, hTq]
    · rw [hval, hTq]; linarith

/-- The function `round` on a finite value, once every rounding of `X + 1/2` is
known to have integer part `T`. -/
theorem round_T (oor : F64 → Int) (s : Bool) (m : Nat) (e : Int) (T : Nat)
    (hcore : ∀ (sg : Bool) (n d : Nat), 0 < d →
      (n : ℚ) / (d : ℚ) = (m : ℚ) * (2 : ℚ) ^ e + 1 / 2 →
      ∃ q e1, roundPos sg n d = fin sg q e1 ∧
        (T : ℚ) ≤ (q : ℚ) * (2 : ℚ) ^ e1 ∧ (q : ℚ) * (2 : ℚ) ^ e1 < (T : ℚ) + 1)
    (hr1 : -2 ^ 63 ≤ signed (decide (s = true ∧ 0 < m)) T)
    (hr2 : signed (decide (s = true ∧ 0 < m)) T < 2 ^ 63) :
    round oor (fin s m e) = signed (decide (s = true ∧ 0 < m)) T := by
  unfold round
  rw [lt_zero]
  by_cases hneg : s = true ∧ 0 < m
  · simp only [hneg, and_self, decide_True, if_true] at hr1 hr2 ⊢
    obtain ⟨hs, hm0⟩ := hneg
    subst hs
    unfold F64.sub half F64.neg
    simp only [Bool.not_false]
    exact addHalf_trunc oor true true m e T rfl (core_dyadic m e T hcore true) hr1 hr2
  · simp only [hneg, decide_False, Bool.false_eq_true, if_false] at hr1 hr2 ⊢
    have hsm : signed s m = signed false m := by
      unfold signed
      cases s
      · rfl
      · have : m = 0 := by
          by_contra h0
          exact hneg ⟨rfl, by omega⟩
        simp [this]
    unfold half
    exact addHalf_trunc oor false s m e T hsm (core_dyadic m e T hcore false) hr1 hr2

/-- The fused form of `round(f * UnitCoinPerCoin)`, once every rounding of the exact
product's magnitude plus `1/2` is known to have integer part `T`. -/
theorem roundFused_T (oor : F64 → Int) (sf : Bool) (mf : Nat) (ef : Int)
    (s : Bool) (m : Nat) (e : Int)
    (hx : F64.mul (fin sf mf ef) UnitCoinPerCoin = fin s m e)
    (hz : m = 0 → mf = 0) (T : Nat)
    (hcore : ∀ (sg : Bool) (n d : Nat), 0 < d →
      (n : ℚ) / (d : ℚ) = ((mf * 6710886400000000 : Nat) : ℚ) * (2 : ℚ) ^ (ef + -26) + 1 / 2 →
      ∃ q e1, roundPos sg n d = fin sg q e1 ∧
        (T : ℚ) ≤ (q : ℚ) * (2 : ℚ) ^ e1 ∧ (q : ℚ) * (2 : ℚ) ^ e1 < (T : ℚ) + 1)
    (hr1 : -2 ^ 63 ≤ signed (decide (s = true ∧ 0 < m)) T)
    (hr2 : signed (decide (s = true ∧ 0 < m)) T < 2 ^ 63) :
    roundFused oor (fin sf mf ef) UnitCoinPerCoin = signed (decide (s = true ∧ 0 < m)) T := by
  have hs : s = sf := by
    unfold F64.mul UnitCoinPerCoin roundDyadic at hx
    have := roundPos_sign _ _ _ _ _ _ hx
    simpa using this
  unfold roundFused
  rw [hx, lt_zero]
  unfold UnitCoinPerCoin F64.fma
  simp only [Bool.xor_false]
  by_cases hneg : s = true ∧ 0 < m
  · simp only [hneg, and_self, decide_True, if_true] at hr1 hr2 ⊢
    have hsf : sf = true := by rw [← hs]; exact hneg.1
    subst hsf
    unfold half F64.neg
    simp only [Bool.not_false]
    exact addHalf_trunc oor true true _ _ T rfl
      (core_dyadic (mf * 6710886400000000) (ef + -26) T hcore true) hr1 hr2
  · simp only [hneg, decide_False, Bool.false_eq_true, if_false] at hr1 hr2 ⊢
    have hsm : signed sf (mf * 6710886400000000) = signed false (mf * 6710886400000000) := by
      unfold signed
      cases sf
      · rfl
      · have hm0 : m = 0 := by
          by_contra h0
          exact hneg ⟨hs, by omega⟩
        simp [hz hm0]
    unfold half
    exact addHalf_trunc oor false sf _ _ T hsm
      (core_dyadic (mf * 6710886400000000) (ef + -26) T hcore false) hr1 hr2

theorem mul_unit_eq (sf : Bool) (mf : Nat) (ef : Int) :
    F64.mul (fin sf mf ef) UnitCoinPerCoin
      = roundPos sf (mf * 6710886400000000 * 2 ^ (ef + -26).toNat) (2 ^ (-(ef + -26)).toNat) := by
  unfold F64.mul UnitCoinPerCoin roundDyadic
  simp only [Bool.xor_false]

/-- The fused form on a product that the multiplication computes exactly. -/
theorem fused_exact (oor : F64 → Int) (sf : Bool) (mf : Nat) (ef : Int)
    (s : Bool) (m : Nat) (e : Int)
    (hx : F64.mul (fin sf mf ef) UnitCoinPerCoin = fin s m e)
    (hexact : ((mf * 6710886400000000 : Nat) : ℚ) * (2 : ℚ) ^ (ef + -26)
      = (m : ℚ) * (2 : ℚ) ^ e)
    (hr : if s = true ∧ 0 < m then (m : ℚ) * (2 : ℚ) ^ e ≤ 2 ^ 63
          else (m : ℚ) * (2 : ℚ) ^ e < 2 ^ 63)
    (hne : (m : ℚ) * (2 : ℚ) ^ e ≠ 1 / 2 - 1 / 2 ^ 54)
    (hodd : ∀ k : Nat, 2 ^ 52 < 2 * k + 1 → (m : ℚ) * (2 : ℚ) ^ e ≠ ((2 * k + 1 : Nat) : ℚ)) :
    ∃ T : Nat, (T : ℚ) ≤ (m : ℚ) * (2 : ℚ) ^ e + 1 / 2 ∧
      (m : ℚ) * (2 : ℚ) ^ e + 1 / 2 < (T : ℚ) + 1 ∧
      roundFused oor (fin sf mf ef) UnitCoinPerCoin = signed (decide (s = true ∧ 0 < m)) T := by
  have hv : Valid (fin s m e) := by
    rw [← hx, mul_unit_eq]; exact roundPos_valid _ _ _ (by positivity)
  have hr' : if decide (s = true ∧ 0 < m) = true then (m : ℚ) * (2 : ℚ) ^ e ≤ 2 ^ 63
      else (m : ℚ) * (2 : ℚ) ^ e < 2 ^ 63 := by
    by_cases hc : s = true ∧ 0 < m
    · simp only [hc, and_self, decide_True, if_true] at hr ⊢; exact hr
    · simp only [hc, decide_False, Bool.false_eq_true, if_false] at hr ⊢; exact hr
  obtain ⟨T, hT1, hT2, hr1, hr2, hcore⟩ := half_sum_core s m e hv _ hr' hne hodd
  have hz : m = 0 → mf = 0 := by
    intro hm0
    rw [hm0] at hexact
    simp only [Nat.cast_zero, zero_mul] at hexact
    have hp : (2 : ℚ) ^ (ef + -26) ≠ 0 := by positivity
    have h0 : ((mf * 6710886400000000 : Nat) : ℚ) = 0 := by
      rcases mul_eq_zero.mp hexact with h | h
      · exact h
      · exact absurd h hp
    have h1 : mf * 6710886400000000 = 0 := by exact_mod_cast h0
    omega
  refine ⟨T, hT1, hT2, roundFused_T oor sf mf ef s m e hx hz T ?_ hr1 hr2⟩
  rw [hexact]
  exact hcore

/-- The fused form on a product that is within `1/8` of a natural number `N` and at
most `2^51 - 1` in magnitude: the result is `N` with the sign of the product. -/
theorem fused_near (oor : F64 → Int) (sf : Bool) (mf : Nat) (ef : Int)
    (s : Bool) (m : Nat) (e : Int) (hfv : Valid (fin sf mf ef))
    (hx : F64.mul (fin sf mf ef) UnitCoinPerCoin = fin s m e)
    (N : Nat) (hN : |(m : ℚ) * (2 : ℚ) ^ e - (N : ℚ)| ≤ 1 / 8)
    (hX : (m : ℚ) * (2 : ℚ) ^ e ≤ 2 ^ 51 - 1) :
    (N : ℚ) ≤ (m : ℚ) * (2 : ℚ) ^ e + 1 / 2 ∧
      (m : ℚ) * (2 : ℚ) ^ e + 1 / 2 < (N : ℚ) + 1 ∧
      roundFused oor (fin sf mf ef) UnitCoinPerCoin = signed (decide (s = true ∧ 0 < m)) N := by
  have h2 : (2 : ℚ) ≠ 0 := by norm_num
  have h12 : (1 : ℚ) ≤ 2 := by norm_num
  obtain ⟨hN1, hN2⟩ := abs_le.mp hN
  have hxr := hx
  rw [mul_unit_eq] at hxr
  have hratio := roundDyadic_ratio (mf * 6710886400000000) (ef + -26)
  have hd0 : 0 < 2 ^ (-(ef + -26)).toNat := by positivity
  have hP0 : (0 : ℚ) ≤ ((mf * 6710886400000000 : Nat) : ℚ) * (2 : ℚ) ^ (ef + -26) := by
    positivity
  -- the product is within 1/8 of its exact value, and is zero only for a zero factor
  have hstep1 : |(m : ℚ) * (2 : ℚ) ^ e
        - ((mf * 6710886400000000 : Nat) : ℚ) * (2 : ℚ) ^ (ef + -26)| ≤ 1 / 8 ∧
      (m = 0 → mf = 0) := by
    rcases Nat.eq_zero_or_pos mf with hmf | hmf
    · rw [hmf] at hxr
      simp only [zero_mul, roundPos_zero] at hxr
      injection hxr with _ hm0 _
      subst hmf
      subst hm0
      refine ⟨by simp, fun _ => rfl⟩
    · have hn0 : 0 < mf * 6710886400000000 * 2 ^ (ef + -26).toNat := by positivity
      obtain ⟨hlo, hhi⟩ := floorLog2_spec _ _ hn0 hd0
      obtain ⟨-, herr⟩ := roundPos_err sf _ _ hn0 hd0 s m e hxr
      rw [hratio] at hlo hhi herr
      have hef : -1074 ≤ ef := hfv.2.1
      have hPlow : (2 : ℚ) ^ (-1048 : Int)
          ≤ ((mf * 6710886400000000 : Nat) : ℚ) * (2 : ℚ) ^ (ef + -26) := by
        have a1 : (2 : ℚ) ^ (52 : Int) ≤ ((mf * 6710886400000000 : Nat) : ℚ) := by
          have h52 : (2 : ℚ) ^ (52 : Int) = ((2 ^ 52 : Nat) : ℚ) := by norm_num
          rw [h52]
          have : 2 ^ 52 ≤ mf * 6710886400000000 := by
            norm_num
            omega
          exact_mod_cast this
        have a2 : (2 : ℚ) ^ (-1100 : Int) ≤ (2 : ℚ) ^ (ef + -26) :=
          zpow_le_zpow_right₀ h12 (by omega)
        have a3 : (2 : ℚ) ^ (-1048 : Int) = (2 : ℚ) ^ (52 : Int) * (2 : ℚ) ^ (-1100 : Int) := by
          rw [← zpow_add₀ h2]; norm_num
        rw [a3]
        exact mul_le_mul a1 a2 (by positivity) (by positivity)
      generalize ((mf * 6710886400000000 : Nat) : ℚ) * (2 : ℚ) ^ (ef + -26) = P at *
      have hP51 : P < (2 : ℚ) ^ (51 : Int) := by
        by_contra hc
        have hc : (2 : ℚ) ^ (51 : Int) ≤ P := not_lt.mp hc
        have hge : (2 : ℚ) ^ (-1022 : Int) ≤ P :=
          le_trans (zpow_le_zpow_right₀ h12 (by norm_num)) hc
        have hrel := roundPos_relErr sf _ _ hn0 hd0 (by rw [hratio]; exact hge) s m e hxr
        rw [hratio] at hrel
        have := (abs_le.mp hrel).1
        have h51 : (2 : ℚ) ^ (51 : Int) = 2 ^ 51 := by norm_num
        rw [h51] at hc
        linarith
      have hl : floorLog2 (mf * 6710886400000000 * 2 ^ (ef + -26).toNat)
          (2 ^ (-(ef + -26)).toNat) ≤ 50 := by
        have := two_zpow_lt_imp _ _ (lt_of_le_of_lt hlo hP51)
        omega
      generalize floorLog2 (mf * 6710886400000000 * 2 ^ (ef + -26).toNat)
          (2 ^ (-(ef + -26)).toNat) = l at hlo hhi herr hl
      constructor
      · refine le_trans herr ?_
        have : (2 : ℚ) ^ (max (l - 52) (-1074)) ≤ (2 : ℚ) ^ (-2 : Int) :=
          zpow_le_zpow_right₀ h12 (by omega)
        have h4 : (2 : ℚ) ^ (-2 : Int) = 1 / 4 := by norm_num
        rw [h4] at this
        linarith
      · intro hm0
        exfalso
        rw [hm0] at herr
        simp only [Nat.cast_zero, zero_mul, zero_sub, abs_neg] at herr
        rw [abs_of_nonneg hP0] at herr
        rcases le_total (l - 52) (-1074) with hc | hc
        · rw [max_eq_right hc] at herr
          have h5 : (2 : ℚ) ^ (-1074 : Int) / 2 < (2 : ℚ) ^ (-1048 : Int) := by
            have : (2 : ℚ) ^ (-1074 : Int) ≤ (2 : ℚ) ^ (-1048 : Int) :=
              zpow_le_zpow_right₀ h12 (by norm_num)
            have hp : (0 : ℚ) < (2 : ℚ) ^ (-1074 : Int) := by positivity
            linarith
          exact absurd (lt_of_le_of_lt (le_trans hPlow herr) h5) (lt_irrefl _)
        · rw [max_eq_left hc] at herr
          have h6 : (2 : ℚ) ^ (l - 52) / 2 < (2 : ℚ) ^ l := by
            have : (2 : ℚ) ^ (l - 52) ≤ (2 : ℚ) ^ l := zpow_le_zpow_right₀ h12 (by omega)
            have hp : (0 : ℚ) < (2 : ℚ) ^ (l - 52) := by positivity
            linarith
          exact absurd (lt_of_le_of_lt (le_trans hlo herr) h6) (lt_irrefl _)
  obtain ⟨hPX, hz⟩ := hstep1
  obtain ⟨hPX1, hPX2⟩ := abs_le.mp hPX
  have hNle : N ≤ 2 ^ 51 := by
    have : (N : ℚ) ≤ ((2 ^ 51 : Nat) : ℚ) := by push_cast; linarith
    exact_mod_cast this
  have hrange : ∀ sg : Bool, -2 ^ 63 ≤ signed sg N ∧ signed sg N < 2 ^ 63 := by
    intro sg
    unfold signed
    norm_num at hNle ⊢
    cases sg <;> simp <;> omega
  refine ⟨by linarith, by linarith,
    roundFused_T oor sf mf ef s m e hx hz N ?_ (hrange _).1 (hrange _).2⟩
  intro sg n d hd hS
  generalize ((mf * 6710886400000000 : Nat) : ℚ) * (2 : ℚ) ^ (ef + -26) = P at *
  have hSpos : (0 : ℚ) < P + 1 / 2 := by linarith
  have hn : 0 < n := by
    rcases Nat.eq_zero_or_pos n with h0 | h0
    · rw [h0] at hS; simp only [Nat.cast_zero, zero_div] at hS; linarith
    · exact h0
  obtain ⟨hlo, hhi⟩ := floorLog2_spec n d hn hd
  rw [hS] at hlo hhi
  have hS51 : P + 1 / 2 < (2 : ℚ) ^ (51 : Int) := by
    have h51 : (2 : ℚ) ^ (51 : Int) = 2 ^ 51 := by norm_num
    rw [h51]; linarith
  have hl : floorLog2 n d ≤ 50 := by
    have := two_zpow_lt_imp _ _ (lt_of_le_of_lt hlo hS51)
    omega
  have hfin : (n : ℚ) / (d : ℚ) < (2 : ℚ) ^ (1023 : Int) := by
    rw [hS]
    exact lt_of_lt_of_le hS51 (zpow_le_zpow_right₀ h12 (by norm_num))
  obtain ⟨q, e1, hq⟩ := roundPos_isFinite sg n d hn hd hfin
  obtain ⟨-, herr⟩ := roundPos_err sg n d hn hd sg q e1 hq
  rw [hS] at herr
  have hE : (2 : ℚ) ^ (max (floorLog2 n d - 52) (-1074)) / 2 ≤ 1 / 8 := by
    have : (2 : ℚ) ^ (max (floorLog2 n d - 52) (-1074)) ≤ (2 : ℚ) ^ (-2 : Int) :=
      zpow_le_zpow_right₀ h12 (by omega)
    have h4 : (2 : ℚ) ^ (-2 : Int) = 1 / 4 := by norm_num
    rw [h4] at this
    linarith
  obtain ⟨hq1, hq2⟩ := abs_le.mp (le_trans herr hE)
  exact ⟨q, e1, hq, by linarith, by linarith⟩

/-- From `r = ±T` with `T ≤ X + 1/2 < T + 1`, where `X` is the magnitude of the
binary64 `x` and the sign is that of `x`: `r` is the integer nearest to `x`, ties
away from zero. -/
theorem nearest_tail (r : Int) (s : Bool) (m : Nat) (e : Int) (T : Nat)
    (hT1 : (T : ℚ) ≤ (m : ℚ) * (2 : ℚ) ^ e + 1 / 2)
    (hT2 : (m : ℚ) * (2 : ℚ) ^ e + 1 / 2 < (T : ℚ) + 1)
    (hr : r = signed (decide (s = true ∧ 0 < m)) T) :
    |(r : ℚ) - toRat (fin s m e)| ≤ 1 / 2 ∧
    (∀ z : Int, |(r : ℚ) - toRat (fin s m e)| ≤ |(z : ℚ) - toRat (fin s m e)|) ∧
    r = (if 0 ≤ toRat (fin s m e) then ⌊toRat (fin s m e) + 1 / 2⌋
         else ⌈toRat (fin s m e) - 1 / 2⌉) := by
  have hX0 : (0 : ℚ) ≤ (m : ℚ) * (2 : ℚ) ^ e := by positivity
  have hfloor : ⌊(m : ℚ) * (2 : ℚ) ^ e + 1 / 2⌋ = (T : Int) := by
    rw [Int.floor_eq_iff]; push_cast; exact ⟨hT1, hT2⟩
  by_cases hneg : s = true ∧ 0 < m
  · have hx : toRat (fin s m e) = -((m : ℚ) * (2 : ℚ) ^ e) := by
      rw [toRat_fin, hneg.1]; simp
    have hXpos : (0 : ℚ) < (m : ℚ) * (2 : ℚ) ^ e := by
      have : (0 : ℚ) < (m : ℚ) := by exact_mod_cast hneg.2
      positivity
    have hsg : signed (decide (s = true ∧ 0 < m)) T = -(T : Int) := by
      simp [signed, hneg]
    rw [hr, hsg, hx]
    generalize (m : ℚ) * (2 : ℚ) ^ e = X at *
    have hd : |((-(T : Int) : Int) : ℚ) - -X| ≤ 1 / 2 := by
      push_cast
      rw [abs_le]; constructor <;> linarith
    refine ⟨hd, nearest_of_half _ _ hd, ?_⟩
    rw [if_neg (by linarith)]
    have : -X - 1 / 2 = -(X + 1 / 2) := by ring
    rw [this, Int.ceil_neg, hfloor]
  · have hx : toRat (fin s m e) = (m : ℚ) * (2 : ℚ) ^ e := by
      rw [toRat_fin]
      cases s
      · simp
      · have : m = 0 := by
          by_contra h0
          exact hneg ⟨rfl, by omega⟩
        simp [this]
    have hsg : signed (decide (s = true ∧ 0 < m)) T = (T : Int) := by
      simp [signed, hneg]
    rw [hr, hsg, hx]
    generalize (m : ℚ) * (2 : ℚ) ^ e = X at *
    have hd : |((T : Int) : ℚ) - X| ≤ 1 / 2 := by
      push_cast
      rw [abs_le]; constructor <;> linarith
    refine ⟨hd, nearest_of_half _ _ hd, ?_⟩
    rw [if_pos hX0, hfloor]

theorem abs_toRat_fin (s : Bool) (m : Nat) (e : Int) :
    |toRat (fin s m e)| = (m : ℚ) * (2 : ℚ) ^ e := by
  have hX0 : (0 : ℚ) ≤ (m : ℚ) * (2 : ℚ) ^ e := by positivity
  rw [toRat_fin]
  split_ifs
  · rw [neg_one_mul, abs_neg, abs_of_nonneg hX0]
  · rw [one_mul, abs_of_nonneg hX0]

/-- The amount `NewAmount` returns, on a build that keeps the product and the sum
apart and on a build that fuses them, for a product within the `int64` range that
is neither `±(1/2 - 2^-54)` nor an odd integer beyond `±2^52`; on the fused build
the product is moreover exact, or within `1/8` of an integer and at most
`2^51 - 1` in magnitude. -/
theorem NewAmount_floor (oor : F64 → Int) (fused : Bool) (f : F64)
    (hfv : Valid f)
    (hf : f.isFinite = true)
    (hxf : (F64.mul f UnitCoinPerCoin).isFinite = true)
    (hlo : -2 ^ 63 ≤ toRat (F64.mul f UnitCoinPerCoin))
    (hhi : toRat (F64.mul f UnitCoinPerCoin) < 2 ^ 63)
    (hne : |toRat (F64.mul f UnitCoinPerCoin)| ≠ 1 / 2 - 1 / 2 ^ 54)
    (hodd : ∀ k : Nat, 2 ^ 52 < 2 * k + 1 →
      |toRat (F64.mul f UnitCoinPerCoin)| ≠ ((2 * k + 1 : Nat) : ℚ))
    (hb : fused = false ∨
      toRat (F64.mul f UnitCoinPerCoin) = toRat f * 10 ^ 8 ∨
      ∃ n : Int, |toRat (F64.mul f UnitCoinPerCoin) - (n : ℚ)| ≤ 1 / 8 ∧
        |toRat (F64.mul f UnitCoinPerCoin)| ≤ 2 ^ 51 - 1) :
    (NewAmount oor fused f).2 = none ∧
    |((NewAmount oor fused f).1 : ℚ) - toRat (F64.mul f UnitCoinPerCoin)| ≤ 1 / 2 ∧
    (∀ z : Int, |((NewAmount oor fused f).1 : ℚ) - toRat (F64.mul f UnitCoinPerCoin)|
        ≤ |(z : ℚ) - toRat (F64.mul f UnitCoinPerCoin)|) ∧
    (NewAmount oor fused f).1 =
      (if 0 ≤ toRat (F64.mul f UnitCoinPerCoin)
       then ⌊toRat (F64.mul f UnitCoinPerCoin) + 1 / 2⌋
       else ⌈toRat (F64.mul f UnitCoinPerCoin) - 1 / 2⌉) := by
  cases f with
  | nan => simp [isFinite] at hf
  | inf s => simp [isFinite] at hf
  | fin sf mf ef =>
    have hNA : NewAmount oor fused (fin sf mf ef)
        = (if fused = true then roundFused oor (fin sf mf ef) UnitCoinPerCoin
           else round oor (F64.mul (fin sf mf ef) UnitCoinPerCoin), none) := by
      cases fused <;> simp [NewAmount, IsNaN, IsInf]
    have hval : Valid (F64.mul (fin sf mf ef) UnitCoinPerCoin) := by
      unfold UnitCoinPerCoin; exact mul_fin_valid _ _ _ _ _ _
    obtain ⟨s, m, e, hx⟩ : ∃ s m e, F64.mul (fin sf mf ef) UnitCoinPerCoin = fin s m e := by
      cases h : F64.mul (fin sf mf ef) UnitCoinPerCoin with
      | nan => rw [h] at hxf; simp [isFinite] at hxf
      | inf s => rw [h] at hxf; simp [isFinite] at hxf
      | fin s m e => exact ⟨s, m, e, rfl⟩
    have hs : s = sf := by
      have h := hx
      rw [mul_unit_eq] at h
      exact roundPos_sign _ _ _ _ _ _ h
    rw [hx] at hval hlo hhi hne hodd hb
    rw [abs_toRat_fin] at hne hodd hb
    rw [hx]
    have hX0 : (0 : ℚ) ≤ (m : ℚ) * (2 : ℚ) ^ e := by positivity
    have hr : if s = true ∧ 0 < m then (m : ℚ) * (2 : ℚ) ^ e ≤ 2 ^ 63
        else (m : ℚ) * (2 : ℚ) ^ e < 2 ^ 63 := by
      by_cases hneg : s = true ∧ 0 < m
      · rw [if_pos hneg]
        rw [toRat_fin, hneg.1] at hlo
        simp only [if_true] at hlo
        linarith
      · rw [if_neg hneg]
        rcases le_or_lt ((2 : ℚ) ^ 63) ((m : ℚ) * (2 : ℚ) ^ e) with hc | hc
        · exfalso
          have hm : 0 < m := by
            rcases Nat.eq_zero_or_pos m with h0 | h0
            · rw [h0] at hc; norm_num at hc
            · exact h0
          have hsf : s = false := by
            cases s
            · rfl
            · exact absurd ⟨rfl, hm⟩ hneg
          rw [toRat_fin, hsf] at hhi
          simp only [Bool.false_eq_true, if_false, one_mul] at hhi
          linarith
        · exact hc
    have hT : ∃ T : Nat, (T : ℚ) ≤ (m : ℚ) * (2 : ℚ) ^ e + 1 / 2 ∧
        (m : ℚ) * (2 : ℚ) ^ e + 1 / 2 < (T : ℚ) + 1 ∧
        (NewAmount oor fused (fin sf mf ef)).1 = signed (decide (s = true ∧ 0 < m)) T := by
      rw [hNA]
      simp only
      cases fused with
      | false =>
        simp only [Bool.false_eq_true, if_false]
        have hr' : if decide (s = true ∧ 0 < m) = true then (m : ℚ) * (2 : ℚ) ^ e ≤ 2 ^ 63
            else (m : ℚ) * (2 : ℚ) ^ e < 2 ^ 63 := by
          by_cases hc : s = true ∧ 0 < m
          · simp only [hc, and_self, decide_True, if_true] at hr ⊢; exact hr
          · simp only [hc, decide_False, Bool.false_eq_true, if_false] at hr ⊢; exact hr
        obtain ⟨T, hT1, hT2, hr1, hr2, hcore⟩ := half_sum_core s m e hval _ hr' hne hodd
        refine ⟨T, hT1, hT2, ?_⟩
        rw [hx]
        exact round_T oor s m e T hcore hr1 hr2
      | true =>
        simp only [if_true]
        rcases hb with hb | hb | ⟨n, hn1, hn2⟩
        · cases hb
        · refine fused_exact oor sf mf ef s m e hx ?_ hr hne hodd
          rw [toRat_fin, toRat_fin, hs] at hb
          have hc : ((mf * 6710886400000000 : Nat) : ℚ) * (2 : ℚ) ^ (ef + -26)
              = (mf : ℚ) * (2 : ℚ) ^ ef * 10 ^ 8 := by
            rw [zpow_add₀ (by norm_num : (2 : ℚ) ≠ 0)]
            push_cast
            norm_num
            ring
          rw [hc]
          cases sf
          · simp only [Bool.false_eq_true, if_false, one_mul] at hb
            exact hb.symm
          · simp only [if_true, neg_one_mul, neg_mul] at hb
            linarith
        · have hN : |(m : ℚ) * (2 : ℚ) ^ e - ((n.natAbs : Nat) : ℚ)| ≤ 1 / 8 := by
            have h1 := abs_abs_sub_abs_le_abs_sub (toRat (fin s m e)) (n : ℚ)
            rw [abs_toRat_fin] at h1
            have h2 : ((n.natAbs : Nat) : ℚ) = |(n : ℚ)| := by
              rw [Nat.cast_natAbs, Int.cast_abs]
            rw [h2]
            exact le_trans h1 hn1
          exact ⟨n.natAbs, fused_near oor sf mf ef s m e hfv hx n.natAbs hN hn2⟩
    obtain ⟨T, hT1, hT2, hres⟩ := hT
    refine ⟨by rw [hNA], ?_⟩
    exact nearest_tail _ s m e T hT1 hT2 hres

/-- Evaluation of `NewAmount` on a finite, non-negative product, product and sum
rounded separately. -/
theorem NewAmount_eval (oor : F64 → Int) (s : Bool) (m : Nat) (e : Int) (x y : F64)
    (hx : F64.mul (fin s m e) UnitCoinPerCoin = x) (hlt : F64.lt x zero = false)
    (hy : F64.add x half = y) :
    NewAmount oor false (fin s m e) = (toInt64 oor y, none) := by
  simp [NewAmount, IsNaN, IsInf, round, hx, hlt, hy]

/-- Evaluation of `NewAmount` on a finite, non-negative product, product and sum
fused. -/
theorem NewAmount_eval_fused (oor : F64 → Int) (s : Bool) (m : Nat) (e : Int) (x y : F64)
    (hx : F64.mul (fin s m e) UnitCoinPerCoin = x) (hlt : F64.lt x zero = false)
    (hy : F64.fma (fin s m e) UnitCoinPerCoin half = y) :
    NewAmount oor true (fin s m e) = (toInt64 oor y, none) := by
  simp [NewAmount, IsNaN, IsInf, roundFused, hx, hlt, hy]

set_option maxRecDepth 10000 in
theorem eval_mul_belowHalf : F64.mul (fin false 6044629098073145 (-80)) UnitCoinPerCoin
    = fin false 9007199254740991 (-54) := by decide

set_option maxRecDepth 10000 in
theorem eval_add_belowHalf :
    F64.add (fin false 9007199254740991 (-54)) half = fin false (2 ^ 52) (-52) := by decide

set_option maxRecDepth 10000 in
theorem eval_fma_belowHalf :
    F64.fma (fin false 6044629098073145 (-80)) UnitCoinPerCoin half
      = fin false 9007199254740991 (-53) := by decide

set_option maxRecDepth 10000 in
theorem eval_mul_odd : F64.mul (fin false 6044629098073147 (-27)) UnitCoinPerCoin
    = fin false 4503599627370497 0 := by decide

set_option maxRecDepth 10000 in
theorem eval_add_odd :
    F64.add (fin false 4503599627370497 0) half = fin false 4503599627370498 0 := by decide

set_option maxRecDepth 10000 in
theorem eval_fma_odd :
    F64.fma (fin false 6044629098073147 (-27)) UnitCoinPerCoin half
      = fin false 4503599627370497 0 := by decide

set_option maxRecDepth 10000 in
theorem eval_mul_even : F64.mul (fin false 6044629098073149 (-27)) UnitCoinPerCoin
    = fin false 4503599627370498 0 := by decide

set_option maxRecDepth 10000 in
theorem eval_add_even :
    F64.add (fin false 4503599627370498 0) half = fin false 4503599627370498 0 := by decide

set_option maxRecDepth 10000 in
theorem eval_fma_even :
    F64.fma (fin false 6044629098073149 (-27)) UnitCoinPerCoin half
      = fin false 4503599627370499 0 := by decide

set_option maxRecDepth 10000 in
theorem eval_mul_both : F64.mul (fin false 6044629098073150 (-27)) UnitCoinPerCoin
    = fin false 4503599627370499 0 := by decide

set_option maxRecDepth 10000 in
theorem eval_add_both :
    F64.add (fin false 4503599627370499 0) half = fin false 4503599627370500 0 := by decide

set_option maxRecDepth 10000 in
theorem eval_fma_both :
    F64.fma (fin false 6044629098073150 (-27)) UnitCoinPerCoin half
      = fin false 4503599627370500 0 := by decide

set_option maxRecDepth 10000 in
theorem eval_mul_big : F64.mul (fin false (2 ^ 52) 18) UnitCoinPerCoin
    = fin false 6710886400000000 44 := by decide

set_option maxRecDepth 10000 in
theorem eval_add_big :
    F64.add (fin false 6710886400000000 44) half = fin false 6710886400000000 44 := by decide

set_option maxRecDepth 10000 in
theorem eval_fma_big :
    F64.fma (fin false (2 ^ 52) 18) UnitCoinPerCoin half
      = fin false 6710886400000000 44 := by decide

set_option maxRecDepth 10000 in
theorem eval_trunc_one : trunc? (fin false (2 ^ 52) (-52)) = some 1 := by decide

set_option maxRecDepth 10000 in
theorem eval_trunc_zero : trunc? (fin false 9007199254740991 (-53)) = some 0 := by decide

set_option maxRecDepth 10000 in
theorem eval_trunc_p1 : trunc? (fin false 4503599627370497 0) = some (2 ^ 52 + 1) := by decide

set_option maxRecDepth 10000 in
theorem eval_trunc_p2 : trunc? (fin false 4503599627370498 0) = some (2 ^ 52 + 2) := by decide

set_option maxRecDepth 10000 in
theorem eval_trunc_p3 : trunc? (fin false 4503599627370499 0) = some (2 ^ 52 + 3) := by decide

set_option maxRecDepth 10000 in
theorem eval_trunc_p4 : trunc? (fin false 4503599627370500 0) = some (2 ^ 52 + 4) := by decide

/-- The amount at `f = 6044629098073150 * 2^-27`, the same on both builds. -/
theorem eval_NewAmount_both (oor : F64 → Int) (fused : Bool) :
    NewAmount oor fused (fin false 6044629098073150 (-27)) = (2 ^ 52 + 4, none) := by
  have ht : toInt64 oor (fin false 4503599627370500 0) = 2 ^ 52 + 4 :=
    toInt64_of_trunc oor _ _ eval_trunc_p4 (by decide) (by decide)
  cases fused with
  | false =>
    rw [NewAmount_eval oor false 6044629098073150 (-27) _ _ eval_mul_both
      (by rw [lt_zero]; decide) eval_add_both, ht]
  | true =>
    rw [NewAmount_eval_fused oor false 6044629098073150 (-27) _ _ eval_mul_both
      (by rw [lt_zero]; decide) eval_fma_both, ht]

/-- The amount at `f = 2^70`, the same conversion on both builds. -/
theorem eval_NewAmount_big (oor : F64 → Int) (fused : Bool) :
    NewAmount oor fused (fin false (2 ^ 52) 18)
      = (toInt64 oor (fin false 6710886400000000 44), none) := by
  cases fused with
  | false =>
    rw [NewAmount_eval oor false (2 ^ 52) 18 _ _ eval_mul_big
      (by rw [lt_zero]; decide) eval_add_big]
  | true =>
    rw [NewAmount_eval_fused oor false (2 ^ 52) 18 _ _ eval_mul_big
      (by rw [lt_zero]; decide) eval_fma_big]

/-- C3 (as stated, refuted) at finite binary64 inputs.  On every build, whether it
fuses the product and the sum or not: for `f = 6044629098073150 * 2^-27` the
binary64 product is `2^52 + 3`, the exact product lies between `2^52 + 3` and
`2^52 + 3.1`, and the result is `2^52 + 4`, more than 1/2 away from both; for
`f = 2^70` the product is `2^70 * 10^8`, beyond every `int64`.  Build by build:
for `f = 6044629098073145 * 2^-80` the product is `1/2 - 2^-54` and the result is
1 unfused, 0 fused; for `f = 6044629098073147 * 2^-27` the product is `2^52 + 1`
and the result is `2^52 + 2` unfused, `2^52 + 1` fused; for
`f = 6044629098073149 * 2^-27` the product is `2^52 + 2` and the result is
`2^52 + 2` unfused, `2^52 + 3` fused. -/
theorem NewAmount_not_nearest :
    (Valid (fin false 6044629098073150 (-27)) ∧
      toRat (F64.mul (fin false 6044629098073150 (-27)) UnitCoinPerCoin) = 2 ^ 52 + 3 ∧
      ∀ oor fused,
        NewAmount oor fused (fin false 6044629098073150 (-27)) = (2 ^ 52 + 4, none) ∧
        1 / 2 < |((NewAmount oor fused (fin false 6044629098073150 (-27))).1 : ℚ)
          - toRat (F64.mul (fin false 6044629098073150 (-27)) UnitCoinPerCoin)| ∧
        1 / 2 < |((NewAmount oor fused (fin false 6044629098073150 (-27))).1 : ℚ)
          - toRat (fin false 6044629098073150 (-27)) * 10 ^ 8|) ∧
    (Valid (fin false (2 ^ 52) 18) ∧
      toRat (F64.mul (fin false (2 ^ 52) 18) UnitCoinPerCoin) = 2 ^ 70 * 10 ^ 8 ∧
      toRat (fin false (2 ^ 52) 18) * 10 ^ 8 = 2 ^ 70 * 10 ^ 8 ∧
      ∀ oor fused, (NewAmount oor fused (fin false (2 ^ 52) 18)).2 = none ∧
        1 / 2 < |((NewAmount oor fused (fin false (2 ^ 52) 18)).1 : ℚ)
          - toRat (F64.mul (fin false (2 ^ 52) 18) UnitCoinPerCoin)|) ∧
    (Valid (fin false 6044629098073145 (-80)) ∧
      toRat (F64.mul (fin false 6044629098073145 (-80)) UnitCoinPerCoin) = 1 / 2 - 1 / 2 ^ 54 ∧
      ∀ oor, NewAmount oor false (fin false 6044629098073145 (-80)) = (1, none) ∧
        NewAmount oor true (fin false 6044629098073145 (-80)) = (0, none) ∧
        1 / 2 < |((NewAmount oor false (fin false 6044629098073145 (-80))).1 : ℚ)
          - toRat (F64.mul (fin false 6044629098073145 (-80)) UnitCoinPerCoin)|) ∧
    (Valid (fin false 6044629098073147 (-27)) ∧
      toRat (F64.mul (fin false 6044629098073147 (-27)) UnitCoinPerCoin) = 2 ^ 52 + 1 ∧
      ∀ oor, NewAmount oor false (fin false 6044629098073147 (-27)) = (2 ^ 52 + 2, none) ∧
        NewAmount oor true (fin false 6044629098073147 (-27)) = (2 ^ 52 + 1, none) ∧
        1 / 2 < |((NewAmount oor false (fin false 6044629098073147 (-27))).1 : ℚ)
          - toRat (F64.mul (fin false 6044629098073147 (-27)) UnitCoinPerCoin)|) ∧
    (Valid (fin false 6044629098073149 (-27)) ∧
      toRat (F64.mul (fin false 6044629098073149 (-27)) UnitCoinPerCoin) = 2 ^ 52 + 2 ∧
      ∀ oor, NewAmount oor false (fin false 6044629098073149 (-27)) = (2 ^ 52 + 2, none) ∧
        NewAmount oor true (fin false 6044629098073149 (-27)) = (2 ^ 52 + 3, none) ∧
        1 / 2 < |((NewAmount oor true (fin false 6044629098073149 (-27))).1 : ℚ)
          - toRat (F64.mul (fin false 6044629098073149 (-27)) UnitCoinPerCoin)|) := by
  refine ⟨⟨by decide, ?_, ?_⟩, ⟨by decide, ?_, ?_, ?_⟩, ⟨by decide, ?_, ?_⟩,
    ⟨by decide, ?_, ?_⟩, ⟨by decide, ?_, ?_⟩⟩
  · rw [eval_mul_both, toRat_fin]; norm_num
  · intro oor fused
    rw [eval_NewAmount_both, eval_mul_both, toRat_fin, toRat_fin]
    refine ⟨rfl, ?_, ?_⟩
    · norm_num
    · rw [lt_abs]
      left
      norm_num
  · rw [eval_mul_big, toRat_fin]; norm_num
  · rw [toRat_fin]; norm_num
  · intro oor fused
    obtain ⟨-, hr⟩ := toInt64_range oor (fin false 6710886400000000 44)
    rw [eval_NewAmount_big, eval_mul_big, toRat_fin]
    refine ⟨rfl, ?_⟩
    simp only
    have hrq : ((toInt64 oor (fin false 6710886400000000 44) : Int) : ℚ) < 2 ^ 63 := by
      exact_mod_cast hr
    generalize ((toInt64 oor (fin false 6710886400000000 44) : Int) : ℚ) = r at hrq ⊢
    rw [lt_abs]
    right
    norm_num
    linarith
  · rw [eval_mul_belowHalf, toRat_fin]; norm_num
  · intro oor
    have h := NewAmount_eval oor false 6044629098073145 (-80) _ _ eval_mul_belowHalf
      (by rw [lt_zero]; decide) eval_add_belowHalf
    have ht : toInt64 oor (fin false (2 ^ 52) (-52)) = 1 :=
      toInt64_of_trunc oor _ 1 eval_trunc_one (by decide) (by decide)
    rw [ht] at h
    have h' := NewAmount_eval_fused oor false 6044629098073145 (-80) _ _ eval_mul_belowHalf
      (by rw [lt_zero]; decide) eval_fma_belowHalf
    have ht' : toInt64 oor (fin false 9007199254740991 (-53)) = 0 :=
      toInt64_of_trunc oor _ 0 eval_trunc_zero (by decide) (by decide)
    rw [ht'] at h'
    rw [h, h', eval_mul_belowHalf, toRat_fin]
    refine ⟨rfl, rfl, ?_⟩
    rw [lt_abs]
    left
    norm_num
  · rw [eval_mul_odd, toRat_fin]; norm_num
  · intro oor
    have h := NewAmount_eval oor false 6044629098073147 (-27) _ _ eval_mul_odd
      (by rw [lt_zero]; decide) eval_add_odd
    have ht : toInt64 oor (fin false 4503599627370498 0) = 2 ^ 52 + 2 :=
      toInt64_of_trunc oor _ _ eval_trunc_p2 (by decide) (by decide)
    rw [ht] at h
    have h' := NewAmount_eval_fused oor false 6044629098073147 (-27) _ _ eval_mul_odd
      (by rw [lt_zero]; decide) eval_fma_odd
    have ht' : toInt64 oor (fin false 4503599627370497 0) = 2 ^ 52 + 1 :=
      toInt64_of_trunc oor _ _ eval_trunc_p1 (by decide) (by decide)
    rw [ht'] at h'
    rw [h, h', eval_mul_odd, toRat_fin]
    refine ⟨rfl, rfl, ?_⟩
    norm_num
  · rw [eval_mul_even, toRat_fin]; norm_num
  · intro oor
    have h := NewAmount_eval oor false 6044629098073149 (-27) _ _ eval_mul_even
      (by rw [lt_zero]; decide) eval_add_even
    have ht : toInt64 oor (fin false 4503599627370498 0) = 2 ^ 52 + 2 :=
      toInt64_of_trunc oor _ _ eval_trunc_p2 (by decide) (by decide)
    rw [ht] at h
    have h' := NewAmount_eval_fused oor false 6044629098073149 (-27) _ _ eval_mul_even
      (by rw [lt_zero]; decide) eval_fma_even
    have ht' : toInt64 oor (fin false 4503599627370499 0) = 2 ^ 52 + 3 :=
      toInt64_of_trunc oor _ _ eval_trunc_p3 (by decide) (by decide)
    rw [ht'] at h'
    rw [h, h', eval_mul_even, toRat_fin]
    refine ⟨rfl, rfl, ?_⟩
    norm_num

/-- C3 (amended): for every finite `f` whose binary64 product
`x = f * UnitCoinPerCoin` is finite and within the `int64` range,
`-2^63 ≤ x < 2^63`, with `|x|` neither `1/2 - 2^-54` nor an odd integer above
`2^52`, and, when the build fuses the product and the sum `f * UnitCoinPerCoin ± 0.5`
into one rounding, with `x` equal to the exact product or within `1/8` of an
integer and `|x| ≤ 2^51 - 1`: `NewAmount(f)` returns, with a nil error, the integer
nearest to `x`, ties rounded away from zero: it is `⌊x + 1/2⌋` for `x ≥ 0` and
`⌈x - 1/2⌉` for `x < 0`, differs from `x` by at most `1/2`, and no integer is
nearer to `x`.  It is computed as `round` does: `0.5` is subtracted when `x < 0`
and added otherwise (from the exact product on a fused build), and the sum is
converted to `int64`. -/
theorem NewAmount_nearest (oor : F64 → Int) (fused : Bool) (f : F64)
    (hfv : Valid f)
    (hf : f.isFinite = true)
    (hxf : (F64.mul f UnitCoinPerCoin).isFinite = true)
    (hlo : -2 ^ 63 ≤ toRat (F64.mul f UnitCoinPerCoin))
    (hhi : toRat (F64.mul f UnitCoinPerCoin) < 2 ^ 63)
    (hne : |toRat (F64.mul f UnitCoinPerCoin)| ≠ 1 / 2 - 1 / 2 ^ 54)
    (hodd : ∀ k : Nat, 2 ^ 52 < 2 * k + 1 →
      |toRat (F64.mul f UnitCoinPerCoin)| ≠ ((2 * k + 1 : Nat) : ℚ))
    (hb : fused = false ∨
      toRat (F64.mul f UnitCoinPerCoin) = toRat f * 10 ^ 8 ∨
      ∃ n : Int, |toRat (F64.mul f UnitCoinPerCoin) - (n : ℚ)| ≤ 1 / 8 ∧
        |toRat (F64.mul f UnitCoinPerCoin)| ≤ 2 ^ 51 - 1) :
    (NewAmount oor fused f).2 = none ∧
    |((NewAmount oor fused f).1 : ℚ) - toRat (F64.mul f UnitCoinPerCoin)| ≤ 1 / 2 ∧
    (∀ z : Int, |((NewAmount oor fused f).1 : ℚ) - toRat (F64.mul f UnitCoinPerCoin)|
        ≤ |(z : ℚ) - toRat (F64.mul f UnitCoinPerCoin)|) ∧
    (NewAmount oor fused f).1 =
      (if 0 ≤ toRat (F64.mul f UnitCoinPerCoin)
       then ⌊toRat (F64.mul f UnitCoinPerCoin) + 1 / 2⌋
       else ⌈toRat (F64.mul f UnitCoinPerCoin) - 1 / 2⌉) ∧
    (NewAmount oor fused f).1 =
      toInt64 oor (if F64.lt (F64.mul f UnitCoinPerCoin) zero = true
        then (if fused = true then F64.fma f UnitCoinPerCoin (F64.neg half)
              else F64.sub (F64.mul f UnitCoinPerCoin) half)
        else (if fused = true then F64.fma f UnitCoinPerCoin half
              else F64.add (F64.mul f UnitCoinPerCoin) half)) := by
  obtain ⟨h1, h2, h3, h4⟩ := NewAmount_floor oor fused f hfv hf hxf hlo hhi hne hodd hb
  refine ⟨h1, h2, h3, h4, ?_⟩
  cases f with
  | nan => simp [isFinite] at hf
  | inf s => simp [isFinite] at hf
  | fin sf mf ef =>
    cases fused <;> simp only [NewAmount, IsNaN, IsInf, round, roundFused] <;>
      split_ifs <;> simp_all

set_option maxRecDepth 10000 in
theorem eval_mul_029 : F64.mul (fin false 5224175567749775 (-54)) UnitCoinPerCoin
    = fin false 7784628223999999 (-28) := by decide

/-- Witness of C3: `f = 0.29 = 5224175567749775 * 2^-54` on a fused build; the
binary64 product with `1e8` is `28999999.999999996`, within `1/8` of `29000000`;
out-of-range conversions are taken to give `-2^63`. -/
theorem NewAmount_nearest_witness :
    (Valid (fin false 5224175567749775 (-54)) ∧
     (fin false 5224175567749775 (-54)).isFinite = true ∧
     (F64.mul (fin false 5224175567749775 (-54)) UnitCoinPerCoin).isFinite = true ∧
     -2 ^ 63 ≤ toRat (F64.mul (fin false 5224175567749775 (-54)) UnitCoinPerCoin) ∧
     toRat (F64.mul (fin false 5224175567749775 (-54)) UnitCoinPerCoin) < 2 ^ 63 ∧
     |toRat (F64.mul (fin false 5224175567749775 (-54)) UnitCoinPerCoin)| ≠ 1 / 2 - 1 / 2 ^ 54 ∧
     (∀ k : Nat, 2 ^ 52 < 2 * k + 1 →
       |toRat (F64.mul (fin false 5224175567749775 (-54)) UnitCoinPerCoin)|
         ≠ ((2 * k + 1 : Nat) : ℚ)) ∧
     (true = false ∨
      toRat (F64.mul (fin false 5224175567749775 (-54)) UnitCoinPerCoin)
        = toRat (fin false 5224175567749775 (-54)) * 10 ^ 8 ∨
      ∃ n : Int, |toRat (F64.mul (fin false 5224175567749775 (-54)) UnitCoinPerCoin) - (n : ℚ)|
          ≤ 1 / 8 ∧
        |toRat (F64.mul (fin false 5224175567749775 (-54)) UnitCoinPerCoin)| ≤ 2 ^ 51 - 1)) ∧
    ((NewAmount (fun _ => -2 ^ 63) true (fin false 5224175567749775 (-54))).2 = none ∧
     |((NewAmount (fun _ => -2 ^ 63) true (fin false 5224175567749775 (-54))).1 : ℚ)
        - toRat (F64.mul (fin false 5224175567749775 (-54)) UnitCoinPerCoin)| ≤ 1 / 2 ∧
     (∀ z : Int, |((NewAmount (fun _ => -2 ^ 63) true (fin false 5224175567749775 (-54))).1 : ℚ)
          - toRat (F64.mul (fin false 5224175567749775 (-54)) UnitCoinPerCoin)|
        ≤ |(z : ℚ) - toRat (F64.mul (fin false 5224175567749775 (-54)) UnitCoinPerCoin)|) ∧
     (NewAmount (fun _ => -2 ^ 63) true (fin false 5224175567749775 (-54))).1 =
       (if 0 ≤ toRat (F64.mul (fin false 5224175567749775 (-54)) UnitCoinPerCoin)
        then ⌊toRat (F64.mul (fin false 5224175567749775 (-54)) UnitCoinPerCoin) + 1 / 2⌋
        else ⌈toRat (F64.mul (fin false 5224175567749775 (-54)) UnitCoinPerCoin) - 1 / 2⌉) ∧
     (NewAmount (fun _ => -2 ^ 63) true (fin false 5224175567749775 (-54))).1 =
       toInt64 (fun _ => -2 ^ 63)
         (if F64.lt (F64.mul (fin false 5224175567749775 (-54)) UnitCoinPerCoin) zero = true
          then (if true = true
                then F64.fma (fin false 5224175567749775 (-54)) UnitCoinPerCoin (F64.neg half)
                else F64.sub (F64.mul (fin false 5224175567749775 (-54)) UnitCoinPerCoin) half)
          else (if true = true
                then F64.fma (fin false 5224175567749775 (-54)) UnitCoinPerCoin half
                else F64.add (F64.mul (fin false 5224175567749775 (-54)) UnitCoinPerCoin)
                  half))) := by
  have hval : toRat (F64.mul (fin false 5224175567749775 (-54)) UnitCoinPerCoin)
      = 7784628223999999 / 2 ^ 28 := by
    rw [eval_mul_029, toRat_fin]; norm_num
  have h0 : Valid (fin false 5224175567749775 (-54)) := by decide
  have h1 : (fin false 5224175567749775 (-54)).isFinite = true := rfl
  have h2 : (F64.mul (fin false 5224175567749775 (-54)) UnitCoinPerCoin).isFinite = true := by
    rw [eval_mul_029]; rfl
  have h3 : -2 ^ 63 ≤ toRat (F64.mul (fin false 5224175567749775 (-54)) UnitCoinPerCoin) := by
    rw [hval]; norm_num
  have h4 : toRat (F64.mul (fin false 5224175567749775 (-54)) UnitCoinPerCoin) < 2 ^ 63 := by
    rw [hval]; norm_num
  have h5 : |toRat (F64.mul (fin false 5224175567749775 (-54)) UnitCoinPerCoin)|
      ≠ 1 / 2 - 1 / 2 ^ 54 := by
    rw [hval]; norm_num [abs_of_pos]
  have h6 : ∀ k : Nat, 2 ^ 52 < 2 * k + 1 →
      |toRat (F64.mul (fin false 5224175567749775 (-54)) UnitCoinPerCoin)|
        ≠ ((2 * k + 1 : Nat) : ℚ) := by
    intro k hk
    rw [hval, abs_of_pos (by norm_num)]
    have hk2 : ((2 ^ 52 : Nat) : ℚ) < ((2 * k + 1 : Nat) : ℚ) := by exact_mod_cast hk
    have h52 : (7784628223999999 : ℚ) / 2 ^ 28 < ((2 ^ 52 : Nat) : ℚ) := by norm_num
    exact ne_of_lt (lt_trans h52 hk2)
  have h7 : true = false ∨
      toRat (F64.mul (fin false 5224175567749775 (-54)) UnitCoinPerCoin)
        = toRat (fin false 5224175567749775 (-54)) * 10 ^ 8 ∨
      ∃ n : Int, |toRat (F64.mul (fin false 5224175567749775 (-54)) UnitCoinPerCoin) - (n : ℚ)|
          ≤ 1 / 8 ∧
        |toRat (F64.mul (fin false 5224175567749775 (-54)) UnitCoinPerCoin)| ≤ 2 ^ 51 - 1 := by
    right
    right
    refine ⟨29000000, ?_, ?_⟩
    · rw [hval, abs_le]
      constructor <;> norm_num
    · rw [hval, abs_of_pos (by norm_num)]
      norm_num
  exact ⟨⟨h0, h1, h2, h3, h4, h5, h6, h7⟩, NewAmount_nearest _ _ _ h0 h1 h2 h3 h4 h5 h6 h7⟩

end Common
